import Mathlib

/-!
Event-stream windowing and frame construction.

A shallow embedding of the timestamp sanitizer (`H5Reader::correctTime`,
`H5Reader::getTime`, `H5Reader::getEventSlice`), of the window index search of
the frame loop in `main.cpp`, and of the representation builders
(`EventFrame::construct`, `StackedHistogram::construct`), together with the
properties established about them.

Conventions.
* `std::vector<long long>` is a `List Int`; the sanitizer only compares and
  copies timestamps, so no arithmetic can overflow there.
* `int` arithmetic of the builders is checked: signed overflow and
  out-of-range vector accesses are undefined behaviour in C++ and are modelled
  as `none`.
* A thrown exception is the `Except.error` / `none` result.
-/

namespace EventData

/-! ## H5Reader: timestamp correction -/

/-- The loop of `H5Reader::correctTime` from index `i` on, `timeLast` being the
loop-carried variable: an element below `timeLast` is overwritten with it,
any other element becomes the new `timeLast`. -/
def correctTimeLoop (timeLast : Int) : List Int → List Int
  | [] => []
  | t :: rest =>
    if t < timeLast then timeLast :: correctTimeLoop timeLast rest
    else t :: correctTimeLoop t rest

/-- Model of `H5Reader::correctTime`: returns at once on an empty array, otherwise runs
the loop from index 0 with `timeLast = timeArray[0]`. The in-place update is
returned as the new array. -/
def correctTime (timeArray : List Int) : List Int :=
  match timeArray with
  | [] => []
  | t0 :: _ => correctTimeLoop t0 timeArray

/-- The local correction loop of `H5Reader::getEventSlice` from index `i` on,
`prev` being the already corrected `t[i - 1]`. -/
def sliceCorrectLoop (prev : Int) : List Int → List Int
  | [] => []
  | t :: rest =>
    if t < prev then prev :: sliceCorrectLoop prev rest
    else t :: sliceCorrectLoop t rest

/-- The correction applied to the `t` column inside `getEventSlice`: the loop
starts at index 1, element 0 is kept. -/
def sliceCorrect (t : List Int) : List Int :=
  match t with
  | [] => []
  | t0 :: rest => t0 :: sliceCorrectLoop t0 rest

/-- The reader: the `open` flag, the declared geometry, the cached corrected
timestamps `allTimes`, and the columns of the event group of the file. -/
structure H5Reader where
  isOpen : Bool
  width : Option Int
  height : Option Int
  allTimes : List Int
  xData : List Int
  yData : List Int
  pData : List Int
  tData : List Int
deriving Repr, DecidableEq

/-- Model of `H5Reader::getTime`: fails on a closed file; fills the cache with the
corrected `t` dataset when the cache is empty; returns the cache. The second
component is the reader after the call. -/
def getTime (r : H5Reader) : Except String (List Int × H5Reader) :=
  if !r.isOpen then .error "File is closed."
  else if r.allTimes.isEmpty then
    let r1 := { r with allTimes := correctTime r.tData }
    .ok (r1.allTimes, r1)
  else .ok (r.allTimes, r)

/-- The result record of `getEventSlice`. -/
structure EventSlice where
  x : List Int
  y : List Int
  p : List Int
  t : List Int
  height : Option Int
  width : Option Int
deriving Repr, DecidableEq

/-- The hyperslab read of `readSlice`: `count` elements from `offset`; a
selection that leaves the dataset makes the HDF5 read throw. -/
def readSlice (data : List Int) (offset count : Nat) : Except String (List Int) :=
  if offset + count ≤ data.length then .ok ((data.drop offset).take count)
  else .error "hyperslab selection out of range"

/-- Model of `H5Reader::getEventSlice`: fails on a closed file and on
`idxEnd < idxStart`; reads the four columns of `[idxStart, idxEnd)` and
corrects the `t` column locally. -/
def getEventSlice (r : H5Reader) (idxStart idxEnd : Nat) : Except String EventSlice :=
  if !r.isOpen then .error "File is closed."
  else if idxEnd < idxStart then .error "idxEnd must be >= idxStart"
  else do
    let sliceSize := idxEnd - idxStart
    let x ← readSlice r.xData idxStart sliceSize
    let y ← readSlice r.yData idxStart sliceSize
    let p ← readSlice r.pData idxStart sliceSize
    let t ← readSlice r.tData idxStart sliceSize
    pure { x := x, y := y, p := p, t := sliceCorrect t,
           height := r.height, width := r.width }

/-! ## main.cpp: window index search -/

/-- The loop of `std::lower_bound` on `[first, first + len)`: the binary search of the
standard library, `*middle < val` moving `first` past `middle`. The bound `h`
keeps every access inside the array. -/
def lowerBoundLoop (T : List Int) (val : Int) (first len : Nat)
    (h : first + len ≤ T.length) : Nat :=
  if hl : 0 < len then
    let half := len / 2
    let middle := first + half
    have hm : middle < T.length := by omega
    if T[middle] < val then
      lowerBoundLoop T val (middle + 1) (len - half - 1) (by omega)
    else
      lowerBoundLoop T val first half (by omega)
  else first
termination_by len
decreasing_by all_goals omega

/-- The call `std::lower_bound(t_array.begin(), t_array.end(), val)` as a distance from
`begin()`. -/
def lowerBound (T : List Int) (val : Int) : Nat :=
  lowerBoundLoop T val 0 T.length (by omega)

/-- The loop of `std::upper_bound` on `[first, first + len)`: the binary search of the
standard library, `val < *middle` keeping the left half. -/
def upperBoundLoop (T : List Int) (val : Int) (first len : Nat)
    (h : first + len ≤ T.length) : Nat :=
  if hl : 0 < len then
    let half := len / 2
    let middle := first + half
    have hm : middle < T.length := by omega
    if val < T[middle] then
      upperBoundLoop T val first half (by omega)
    else
      upperBoundLoop T val (middle + 1) (len - half - 1) (by omega)
  else first
termination_by len
decreasing_by all_goals omega

/-- The call `std::upper_bound(t_array.begin(), t_array.end(), val)` as a distance from
`begin()`. -/
def upperBound (T : List Int) (val : Int) : Nat :=
  upperBoundLoop T val 0 T.length (by omega)

/-- The pair `(idx_start, idx_end)` of the frame loop for the window
`[window_start_time, current_time]`. -/
def windowIndexRange (t_array : List Int) (window_start_time current_time : Int) :
    Nat × Nat :=
  (lowerBound t_array window_start_time, upperBound t_array current_time)

/-- The skip test of the frame loop, `idx_end <= idx_start`. -/
def skipFrame (t_array : List Int) (window_start_time current_time : Int) : Bool :=
  decide ((windowIndexRange t_array window_start_time current_time).2 ≤
    (windowIndexRange t_array window_start_time current_time).1)

/-! ## EventFrame -/

/-- Largest value of a 32-bit `int`. -/
def INT_MAX : Int := 2147483647

/-- Smallest value of a 32-bit `int`. -/
def INT_MIN : Int := -2147483648

/-- The value of an `int` expression whose mathematical value is `v`: signed
overflow is undefined behaviour, so there is a value only inside the 32-bit
range. -/
def checkedInt (v : Int) : Option Int :=
  if INT_MIN ≤ v ∧ v ≤ INT_MAX then some v else none

/-- The vector `std::vector<int>(n, 0)` for an `int` expression `n`: a negative
`n` converts to a `size_t` beyond `max_size()` and the constructor throws. -/
def zeroCounters (n : Int) : Option (List Int) :=
  if 0 ≤ n then some (List.replicate n.toNat 0) else none

/-- The statement `cnt[idx]++` on a `std::vector<int>`: an index outside the
vector and an increment past `INT_MAX` are undefined behaviour. -/
def increment (cnt : List Int) (idx : Int) : Option (List Int) :=
  if 0 ≤ idx then
    match cnt[idx.toNat]? with
    | some v => (checkedInt (v + 1)).map fun v1 => cnt.set idx.toNat v1
    | none => none
  else none

/-- The configuration held by an `EventFrame`. -/
structure EventFrame where
  height : Int
  width : Int
  downsample : Bool
deriving Repr, DecidableEq

/-- Model of `EventFrame::getShape`, `/` being the truncating `int` division. -/
def EventFrame.getShape (f : EventFrame) : Int × Int × Int :=
  if f.downsample then (3, Int.tdiv f.height 2, Int.tdiv f.width 2)
  else (3, f.height, f.width)

/-- Lines 23 to 25 of `EventFrame::construct`:
`xi = max(0, min(x, width - 1))`, `yi = max(0, min(y, height - 1))`,
`idx = yi * width + xi`, every `int` operation checked. -/
def pixelIndex (f : EventFrame) (x y : Int) : Option Int := do
  let w1 ← checkedInt (f.width - 1)
  let xi := max 0 (min x w1)
  let h1 ← checkedInt (f.height - 1)
  let yi := max 0 (min y h1)
  let yw ← checkedInt (yi * f.width)
  checkedInt (yw + xi)

/-- One iteration of the accumulation loop for the event `(x, y, pol)`:
`count_on[idx]++` when `pol == 1`, `count_off[idx]++` otherwise. -/
def accumulateEvent (f : EventFrame) (x y pol : Int) (c : List Int × List Int) :
    Option (List Int × List Int) := do
  let idx ← pixelIndex f x y
  if pol = 1 then
    let count_on ← increment c.1 idx
    pure (count_on, c.2)
  else
    let count_off ← increment c.2 idx
    pure (c.1, count_off)

/-- The accumulation loop `for (i = 0; i < x.size(); i++)` over the parallel
columns; `y[i]` or `pol[i]` beyond the end of its column is an out-of-range
access. -/
def accumulate (f : EventFrame) :
    List Int → List Int → List Int → List Int × List Int → Option (List Int × List Int)
  | [], _, _, c => some c
  | xv :: xs, yv :: ys, pv :: ps, c => do
    let c1 ← accumulateEvent f xv yv pv c
    accumulate f xs ys ps c1
  | _ :: _, _, _, _ => none

/-- The two counter vectors of `EventFrame::construct` after the accumulation
loop (lines 19 to 30): `(count_on, count_off)`. -/
def counters (f : EventFrame) (x y pol : List Int) : Option (List Int × List Int) := do
  let n ← checkedInt (f.height * f.width)
  let count_on ← zeroCounters n
  let count_off ← zeroCounters n
  accumulate f x y pol (count_on, count_off)

/-- The results of a list of fallible computations, when all of them have
one. -/
def collect {α : Type} : List (Option α) → Option (List α)
  | [] => some []
  | o :: os => do
    let v ← o
    let vs ← collect os
    pure (v :: vs)

/-- The body of the pixel loop (lines 35 to 40) at row `i`, column `j`: the
pixel keeps the initial 127 unless the difference of its counters is non-zero. -/
def pixelValue (f : EventFrame) (c : List Int × List Int) (i j : Int) : Option Nat := do
  let iw ← checkedInt (i * f.width)
  let idx ← checkedInt (iw + j)
  if idx < 0 then none
  else
    let a ← c.1[idx.toNat]?
    let b ← c.2[idx.toNat]?
    let diff ← checkedInt (a - b)
    pure (if diff > 0 then 255 else if diff < 0 then 0 else 127)

/-- The single-channel frame of lines 32 to 42, as a list of `height` rows of
`width` pixels; `cv::Mat` rejects a negative dimension. -/
def grayFrame (f : EventFrame) (c : List Int × List Int) : Option (List (List Nat)) :=
  if f.height < 0 ∨ f.width < 0 then none
  else
    collect ((List.range f.height.toNat).map fun (i : Nat) =>
      collect ((List.range f.width.toNat).map fun (j : Nat) => pixelValue f c i j))

/-- Model of `EventFrame::construct` up to the single-channel frame (lines 19 to 42).
The `time` column is not read; `main` fills it with the integer timestamps of
the slice. -/
def constructGray (f : EventFrame) (x y pol : List Int) (_time : List Int) :
    Option (List (List Nat)) := do
  let c ← counters f x y pol
  grayFrame f c

/-- The conversion `cv::cvtColor(frame, colorFrame, cv::COLOR_GRAY2BGR)`: the
gray value in each of the three channels; OpenCV rejects an empty source
matrix (no rows or no columns). -/
def cvtColorGray2BGR (frame : List (List Nat)) : Option (List (List (Nat × Nat × Nat))) :=
  if frame.all List.isEmpty then none
  else some (frame.map fun row => row.map fun v => (v, v, v))

/-- Model of `EventFrame::construct`. The OpenCV resampling
`cv::resize(..., INTER_LINEAR)` is the parameter `resize`, called with the
target width and height; it may throw. -/
def EventFrame.construct
    (resize : List (List (Nat × Nat × Nat)) → Int → Int →
      Option (List (List (Nat × Nat × Nat))))
    (f : EventFrame) (x y pol : List Int) (time : List Int) :
    Option (List (List (Nat × Nat × Nat))) := do
  let frame ← constructGray f x y pol time
  let colorFrame ← cvtColorGray2BGR frame
  if f.downsample then
    resize colorFrame (Int.tdiv f.width 2) (Int.tdiv f.height 2)
  else
    pure colorFrame

/-! ### Reference quantities for the accumulation -/

/-- The events of a window as tuples `(x, y, pol)`, built from the parallel
columns. -/
def zipEvents (x y pol : List Int) : List (Int × Int × Int) :=
  x.zip (y.zip pol)

/-- A coordinate clamped into `[0, size - 1]`, written `min(max(v, 0), size - 1)`. -/
def clampCoord (v size : Int) : Int := min (max v 0) (size - 1)

/-- Number of "on" events (`pol = 1`) of the window whose clamped coordinates
are column `j`, row `i`. -/
def onCount (f : EventFrame) (x y pol : List Int) (i j : Int) : Nat :=
  (zipEvents x y pol).countP fun e =>
    decide (clampCoord e.1 f.width = j ∧ clampCoord e.2.1 f.height = i ∧ e.2.2 = 1)

/-- Number of "off" events (`pol ≠ 1`) of the window whose clamped coordinates
are column `j`, row `i`. -/
def offCount (f : EventFrame) (x y pol : List Int) (i j : Int) : Nat :=
  (zipEvents x y pol).countP fun e =>
    decide (clampCoord e.1 f.width = j ∧ clampCoord e.2.1 f.height = i ∧ e.2.2 ≠ 1)

/-- The pixel value the difference of two counts stands for. -/
def diffValue (on_count off_count : Nat) : Nat :=
  if (on_count : Int) - (off_count : Int) > 0 then 255
  else if (on_count : Int) - (off_count : Int) < 0 then 0 else 127

/-- The row-major index of the nearest in-bounds pixel of `(x, y)`. -/
def clampedIndex (f : EventFrame) (x y : Int) : Int :=
  clampCoord y f.height * f.width + clampCoord x f.width

/-- The pixel `frame.at<uchar>(i, j)` of a frame given as a list of rows. -/
def pixelAt (frame : List (List Nat)) (i j : Nat) : Option Nat :=
  (frame[i]?).bind fun row => row[j]?

/-- The accumulation loop over the events as tuples. -/
def accumulateEvents (f : EventFrame) :
    List (Int × Int × Int) → List Int × List Int → Option (List Int × List Int)
  | [], cnt => some cnt
  | e :: es, cnt => (accumulateEvent f e.1 e.2.1 e.2.2 cnt).bind (accumulateEvents f es)

/-- Every event has an accumulator index inside a vector of `n` counters. -/
def validEvents (f : EventFrame) (n : Nat) (es : List (Int × Int × Int)) : Prop :=
  ∀ e ∈ es, ∃ k : Nat, k < n ∧ pixelIndex f e.1 e.2.1 = some (k : Int)

/-- Number of "on" events whose accumulator index is `k`. -/
def hitOn (f : EventFrame) (es : List (Int × Int × Int)) (k : Nat) : Nat :=
  es.countP fun e => decide (pixelIndex f e.1 e.2.1 = some (k : Int) ∧ e.2.2 = 1)

/-- Number of "off" events whose accumulator index is `k`. -/
def hitOff (f : EventFrame) (es : List (Int × Int × Int)) (k : Nat) : Nat :=
  es.countP fun e => decide (pixelIndex f e.1 e.2.1 = some (k : Int) ∧ e.2.2 ≠ 1)

/-- A counter vector with `g k` added to entry `k`. -/
def bump (cnt : List Int) (g : Nat → Nat) : List Int :=
  (List.range cnt.length).map fun k => cnt.getD k 0 + (g k : Int)

/-- Every counter holds a count that fits an `int`. -/
def inRange (cnt : List Int) : Prop := ∀ v ∈ cnt, 0 ≤ v ∧ v ≤ INT_MAX

/-- Adding two counter vectors entry by entry in `int` arithmetic. -/
def mergeCounters (a b : List Int) : Option (List Int) :=
  collect (List.zipWith (fun u v => checkedInt (u + v)) a b)

/-- Adding the `(count_on, count_off)` pairs of two partial accumulations. -/
def mergeAccumulations (a b : Option (List Int × List Int)) : Option (List Int × List Int) := do
  let ca ← a
  let cb ← b
  let count_on ← mergeCounters ca.1 cb.1
  let count_off ← mergeCounters ca.2 cb.2
  pure (count_on, count_off)

/-! ## StackedHistogram -/

/-- The configuration held by a `StackedHistogram`. -/
structure StackedHistogram where
  bins : Int
  height : Int
  width : Int
  count_cutoff : Int
  fastmode : Bool
  channels : Int
  downsample : Bool
deriving Repr, DecidableEq

/-- The constructor `StackedHistogram::StackedHistogram`: a given cutoff is
capped at 255, a missing one is 255; `channels` is 2. -/
def StackedHistogram.new (bins height width : Int) (count_cutoff : Option Int)
    (fastmode downsample : Bool) : StackedHistogram :=
  { bins := bins, height := height, width := width,
    count_cutoff := match count_cutoff with
      | some v => min v 255
      | none => 255,
    fastmode := fastmode, channels := 2, downsample := downsample }

/-- Model of `StackedHistogram::getShape`. -/
def StackedHistogram.getShape (sh : StackedHistogram) : Int × Int × Int :=
  if sh.downsample then (2 * sh.bins, Int.tdiv sh.height 2, Int.tdiv sh.width 2)
  else (2 * sh.bins, sh.height, sh.width)

/-- Model of `StackedHistogram::construct`: the body allocates
`cv::Mat::zeros(height, width, CV_8UC1)` and returns it; the event columns are
not read. `cv::Mat` rejects a negative dimension. -/
def StackedHistogram.construct (sh : StackedHistogram) (_x _y _pol : List Int)
    (_time : List Int) : Option (List (List Nat)) :=
  if sh.height < 0 ∨ sh.width < 0 then none
  else some (List.replicate sh.height.toNat (List.replicate sh.width.toNat 0))

/-! ## main.cpp: geometry resolution -/

/-- The constructor `H5Reader::H5Reader(h5FilePath, width, height)` on an
existing, well-formed file with the given event columns: the declared geometry
is stored in the members `width` and `height`, the file is open and the
timestamp cache is empty. -/
def H5Reader.new (xData yData pData tData : List Int) (width height : Option Int) :
    H5Reader :=
  { isOpen := true, width := width, height := height, allTimes := [],
    xData := xData, yData := yData, pData := pData, tData := tData }

/-- Model of `H5Reader::getHeightAndWidth`: the pair `{height, width}`. -/
def getHeightAndWidth (r : H5Reader) : Option Int × Option Int :=
  (r.height, r.width)

/-- Lines 35 to 39 of `main`: when both components of `hw` hold a value,
`width = hw.first.value()` and `height = hw.second.value()`; otherwise the
command-line values stay. The result is the pair `(width, height)`. -/
def resolveGeometry (width height : Int) (hw : Option Int × Option Int) : Int × Int :=
  match hw.1, hw.2 with
  | some first, some second => (first, second)
  | _, _ => (width, height)

/-- Lines 21 to 43 of `main`: the reader is constructed with the command-line
`width` and `height`, the geometry is read back from it, and the builder is
`EventFrame eventFrame(height, width, false)`. -/
def mainEventFrame (xData yData pData tData : List Int) (width height : Int) : EventFrame :=
  let reader := H5Reader.new xData yData pData tData (some width) (some height)
  let hw := getHeightAndWidth reader
  let g := resolveGeometry width height hw
  { height := g.2, width := g.1, downsample := false }

/-! ## Properties of the sanitizer -/

/-- One step of the loop with the carried value made explicit. -/
theorem correctTimeLoop_cons (tl t : Int) (rest : List Int) :
    correctTimeLoop tl (t :: rest) = max t tl :: correctTimeLoop (max t tl) rest := by
  show (if t < tl then tl :: correctTimeLoop tl rest else t :: correctTimeLoop t rest) = _
  by_cases h : t < tl
  · rw [if_pos h, max_eq_right (le_of_lt h)]
  · rw [if_neg h, max_eq_left (not_lt.mp h)]

theorem correctTimeLoop_length (tl : Int) (l : List Int) :
    (correctTimeLoop tl l).length = l.length := by
  induction l generalizing tl with
  | nil => rfl
  | cons t rest ih =>
    rw [correctTimeLoop_cons]
    simp [ih]

theorem correctTime_length (S : List Int) : (correctTime S).length = S.length := by
  cases S with
  | nil => rfl
  | cons t rest => exact correctTimeLoop_length t (t :: rest)

theorem correctTime_cons (t : Int) (rest : List Int) :
    correctTime (t :: rest) = t :: correctTimeLoop t rest := by
  show correctTimeLoop t (t :: rest) = _
  rw [correctTimeLoop_cons, max_self]

/-- The recurrence of the loop, by position. -/
theorem correctTimeLoop_getElem_succ (tl : Int) (l : List Int) (i : Nat) (c s : Int)
    (hc : (correctTimeLoop tl l)[i]? = some c) (hs : l[i + 1]? = some s) :
    (correctTimeLoop tl l)[i + 1]? = some (max s c) := by
  induction l generalizing tl i with
  | nil => simp at hs
  | cons t rest ih =>
    rw [correctTimeLoop_cons] at hc ⊢
    cases i with
    | zero =>
      simp only [List.getElem?_cons_zero, Option.some.injEq] at hc
      cases rest with
      | nil => simp at hs
      | cons t2 rest2 =>
        simp only [List.getElem?_cons_succ, List.getElem?_cons_zero, Option.some.injEq] at hs
        rw [correctTimeLoop_cons]
        simp [hc, hs]
    | succ j =>
      simp only [List.getElem?_cons_succ] at hc hs ⊢
      exact ih _ j hc hs

/-- Every element of the loop output is at least the carried value. -/
theorem le_of_mem_correctTimeLoop (tl : Int) (l : List Int) :
    ∀ c ∈ correctTimeLoop tl l, tl ≤ c := by
  induction l generalizing tl with
  | nil => intro c hc; simp [correctTimeLoop] at hc
  | cons t rest ih =>
    intro c hc
    rw [correctTimeLoop_cons, List.mem_cons] at hc
    rcases hc with rfl | hc
    · exact le_max_right _ _
    · exact le_trans (le_max_right _ _) (ih _ c hc)

theorem correctTimeLoop_pairwise (tl : Int) (l : List Int) :
    (correctTimeLoop tl l).Pairwise (· ≤ ·) := by
  induction l generalizing tl with
  | nil => simp [correctTimeLoop]
  | cons t rest ih =>
    rw [correctTimeLoop_cons, List.pairwise_cons]
    exact ⟨le_of_mem_correctTimeLoop _ rest, ih _⟩

theorem correctTime_pairwise (S : List Int) : (correctTime S).Pairwise (· ≤ ·) := by
  cases S with
  | nil => simp [correctTime]
  | cons t rest => exact correctTimeLoop_pairwise t (t :: rest)

/-- On input whose elements are all at least the carried value and which is
non-decreasing, the loop changes nothing. -/
theorem correctTimeLoop_of_pairwise (tl : Int) (l : List Int)
    (hl : l.Pairwise (· ≤ ·)) (hb : ∀ c ∈ l, tl ≤ c) : correctTimeLoop tl l = l := by
  induction l generalizing tl with
  | nil => rfl
  | cons t rest ih =>
    rw [List.pairwise_cons] at hl
    have ht : tl ≤ t := hb t (List.mem_cons_self _ _)
    rw [correctTimeLoop_cons, max_eq_left ht, ih t hl.2 hl.1]

theorem correctTime_of_pairwise (S : List Int) (hS : S.Pairwise (· ≤ ·)) :
    correctTime S = S := by
  cases S with
  | nil => rfl
  | cons t rest =>
    rw [List.pairwise_cons] at hS
    rw [correctTime_cons, correctTimeLoop_of_pairwise t rest hS.2 hS.1]

/-- C1: for every timestamp sequence `S`, the empty one included,
`correctTime S` has the length of `S`, its first element is the first element
of `S`, and each later element is the maximum of the original element and the
previous corrected element. -/
theorem correctTime_spec (S : List Int) :
    (correctTime S).length = S.length ∧
    (correctTime S)[0]? = S[0]? ∧
    ∀ (i : Nat) (c s : Int), (correctTime S)[i]? = some c → S[i + 1]? = some s →
      (correctTime S)[i + 1]? = some (max s c) := by
  refine ⟨correctTime_length S, ?_, ?_⟩
  · cases S with
    | nil => rfl
    | cons t rest => rw [correctTime_cons]; simp
  · intro i c s hc hs
    cases S with
    | nil => simp at hs
    | cons t rest => exact correctTimeLoop_getElem_succ t (t :: rest) i c s hc hs

theorem correctTime_spec_witness :
    (correctTime [5, 3, 4, 9, 7]).length = ([5, 3, 4, 9, 7] : List Int).length ∧
    (correctTime [5, 3, 4, 9, 7])[0]? = ([5, 3, 4, 9, 7] : List Int)[0]? ∧
    (correctTime [5, 3, 4, 9, 7])[3]? = some (max 9 5) :=
  ⟨(correctTime_spec [5, 3, 4, 9, 7]).1, (correctTime_spec [5, 3, 4, 9, 7]).2.1,
   (correctTime_spec [5, 3, 4, 9, 7]).2.2 2 5 9 (by decide) (by decide)⟩

/-- C2: the output of `correctTime` is non-decreasing and has the length of
its input, and this is the array `getTime` returns (and caches) on an open
reader whose cache is still empty. -/
theorem getTime_sorted (S : List Int) :
    (correctTime S).Pairwise (· ≤ ·) ∧ (correctTime S).length = S.length ∧
    ∀ r : H5Reader, r.isOpen = true → r.allTimes = [] → r.tData = S →
      getTime r = .ok (correctTime S, { r with allTimes := correctTime S }) ∧
      getTime { r with allTimes := correctTime S } =
        .ok (correctTime S, { r with allTimes := correctTime S }) := by
  refine ⟨correctTime_pairwise S, correctTime_length S, ?_⟩
  intro r ho hc hS
  subst hS
  constructor
  · simp [getTime, ho, hc]
  · by_cases he : (correctTime r.tData).isEmpty = true
    · have : correctTime r.tData = [] := List.isEmpty_iff.mp he
      simp [getTime, ho, this]
    · simp [getTime, ho, he]

theorem getTime_sorted_witness :
    (correctTime [5, 3, 4]).Pairwise (· ≤ ·) ∧
    getTime ⟨true, some 20, some 20, [], [1, 2, 3], [1, 2, 3], [1, 0, 1], [5, 3, 4]⟩ =
      .ok (correctTime [5, 3, 4],
        ⟨true, some 20, some 20, correctTime [5, 3, 4], [1, 2, 3], [1, 2, 3], [1, 0, 1],
          [5, 3, 4]⟩) :=
  ⟨(getTime_sorted [5, 3, 4]).1,
   ((getTime_sorted [5, 3, 4]).2.2
      ⟨true, some 20, some 20, [], [1, 2, 3], [1, 2, 3], [1, 0, 1], [5, 3, 4]⟩
      rfl rfl rfl).1⟩

/-- C3: `correctTime` is idempotent, and it leaves every non-decreasing
sequence unchanged. -/
theorem correctTime_idempotent :
    (∀ S : List Int, correctTime (correctTime S) = correctTime S) ∧
    (∀ S : List Int, S.Pairwise (· ≤ ·) → correctTime S = S) :=
  ⟨fun S => correctTime_of_pairwise _ (correctTime_pairwise S), correctTime_of_pairwise⟩

theorem correctTime_idempotent_witness :
    correctTime (correctTime [5, 3, 4]) = correctTime [5, 3, 4] ∧
    correctTime [1, 2, 2, 7] = [1, 2, 2, 7] :=
  ⟨correctTime_idempotent.1 [5, 3, 4], correctTime_idempotent.2 [1, 2, 2, 7] (by decide)⟩

/-! ## Properties of the window index search -/

theorem sorted_getElem_le (T : List Int) (hT : T.Pairwise (· ≤ ·)) (i j : Nat)
    (hi : i < T.length) (hj : j < T.length) (hij : i ≤ j) : T[i] ≤ T[j] := by
  rcases Nat.lt_or_ge i j with h1 | h1
  · exact List.pairwise_iff_getElem.mp hT i j hi hj h1
  · have : i = j := by omega
    subst this; exact le_refl _

/-- Loop invariant of `lowerBoundLoop`: everything left of `first` is below
`val`, everything from `first + len` on is not. -/
theorem lowerBoundLoop_spec (T : List Int) (val : Int) (hT : T.Pairwise (· ≤ ·))
    (len first : Nat) (h : first + len ≤ T.length)
    (hlo : ∀ (i : Nat) (hi : i < T.length), i < first → T[i] < val)
    (hhi : ∀ (i : Nat) (hi : i < T.length), first + len ≤ i → val ≤ T[i]) :
    lowerBoundLoop T val first len h ≤ T.length ∧
    (∀ (i : Nat) (hi : i < T.length), i < lowerBoundLoop T val first len h → T[i] < val) ∧
    (∀ (i : Nat) (hi : i < T.length), lowerBoundLoop T val first len h ≤ i → val ≤ T[i]) := by
  induction len using Nat.strong_induction_on generalizing first with
  | _ len ih =>
    rw [lowerBoundLoop]
    by_cases hl : 0 < len
    · simp only [hl, ↓reduceDIte]
      have hm : first + len / 2 < T.length := by omega
      by_cases hc : T[first + len / 2] < val
      · simp only [hc, ↓reduceIte]
        apply ih (len - len / 2 - 1) (by omega)
        · intro i hi hlt
          have := sorted_getElem_le T hT i (first + len / 2) hi hm (by omega)
          omega
        · intro i hi hge
          exact hhi i hi (by omega)
      · simp only [hc, ↓reduceIte]
        apply ih (len / 2) (by omega)
        · exact hlo
        · intro i hi hge
          have := sorted_getElem_le T hT (first + len / 2) i hm hi (by omega)
          omega
    · simp only [hl, ↓reduceDIte]
      exact ⟨by omega, fun i hi hlt => hlo i hi hlt, fun i hi hge => hhi i hi (by omega)⟩

/-- Loop invariant of `upperBoundLoop`: everything left of `first` is at most
`val`, everything from `first + len` on is above it. -/
theorem upperBoundLoop_spec (T : List Int) (val : Int) (hT : T.Pairwise (· ≤ ·))
    (len first : Nat) (h : first + len ≤ T.length)
    (hlo : ∀ (i : Nat) (hi : i < T.length), i < first → T[i] ≤ val)
    (hhi : ∀ (i : Nat) (hi : i < T.length), first + len ≤ i → val < T[i]) :
    upperBoundLoop T val first len h ≤ T.length ∧
    (∀ (i : Nat) (hi : i < T.length), i < upperBoundLoop T val first len h → T[i] ≤ val) ∧
    (∀ (i : Nat) (hi : i < T.length), upperBoundLoop T val first len h ≤ i → val < T[i]) := by
  induction len using Nat.strong_induction_on generalizing first with
  | _ len ih =>
    rw [upperBoundLoop]
    by_cases hl : 0 < len
    · simp only [hl, ↓reduceDIte]
      have hm : first + len / 2 < T.length := by omega
      by_cases hc : val < T[first + len / 2]
      · simp only [hc, ↓reduceIte]
        apply ih (len / 2) (by omega)
        · exact hlo
        · intro i hi hge
          have := sorted_getElem_le T hT (first + len / 2) i hm hi (by omega)
          omega
      · simp only [hc, ↓reduceIte]
        apply ih (len - len / 2 - 1) (by omega)
        · intro i hi hlt
          have := sorted_getElem_le T hT i (first + len / 2) hi hm (by omega)
          omega
        · intro i hi hge
          exact hhi i hi (by omega)
    · simp only [hl, ↓reduceDIte]
      exact ⟨by omega, fun i hi hlt => hlo i hi hlt, fun i hi hge => hhi i hi (by omega)⟩

theorem lowerBound_spec (T : List Int) (val : Int) (hT : T.Pairwise (· ≤ ·)) :
    lowerBound T val ≤ T.length ∧
    (∀ (i : Nat) (hi : i < T.length), i < lowerBound T val → T[i] < val) ∧
    (∀ (i : Nat) (hi : i < T.length), lowerBound T val ≤ i → val ≤ T[i]) :=
  lowerBoundLoop_spec T val hT T.length 0 (by omega)
    (fun i _ h0 => absurd h0 (Nat.not_lt_zero i)) (fun i hi hge => by omega)

theorem upperBound_spec (T : List Int) (val : Int) (hT : T.Pairwise (· ≤ ·)) :
    upperBound T val ≤ T.length ∧
    (∀ (i : Nat) (hi : i < T.length), i < upperBound T val → T[i] ≤ val) ∧
    (∀ (i : Nat) (hi : i < T.length), upperBound T val ≤ i → val < T[i]) :=
  upperBoundLoop_spec T val hT T.length 0 (by omega)
    (fun i _ h0 => absurd h0 (Nat.not_lt_zero i)) (fun i hi hge => by omega)

/-- C4: for a non-decreasing timestamp array `T` and a window `[a, b]` with
`a ≤ b`, an index `i < N` lies in `[idx_start, idx_end)` exactly when
`a ≤ T[i] ≤ b`, where `idx_start` is the lower bound of `a` and `idx_end` the
upper bound of `b`. -/
theorem windowIndexRange_mem_iff (T : List Int) (a b : Int)
    (hT : T.Pairwise (· ≤ ·)) (_hab : a ≤ b) (i : Nat) (hi : i < T.length) :
    ((windowIndexRange T a b).1 ≤ i ∧ i < (windowIndexRange T a b).2) ↔
      (a ≤ T[i] ∧ T[i] ≤ b) := by
  obtain ⟨_, hl1, hl2⟩ := lowerBound_spec T a hT
  obtain ⟨_, hu1, hu2⟩ := upperBound_spec T b hT
  show (lowerBound T a ≤ i ∧ i < upperBound T b) ↔ _
  constructor
  · rintro ⟨h1, h2⟩
    exact ⟨hl2 i hi h1, hu1 i hi h2⟩
  · rintro ⟨h1, h2⟩
    constructor
    · by_contra hc
      have := hl1 i hi (by omega)
      omega
    · by_contra hc
      have := hu2 i hi (by omega)
      omega

theorem windowIndexRange_mem_iff_witness :
    ((windowIndexRange [100, 150, 300, 350] 120 300).1 ≤ 2 ∧
      2 < (windowIndexRange [100, 150, 300, 350] 120 300).2) ↔
      ((120 : Int) ≤ 300 ∧ (300 : Int) ≤ 300) :=
  windowIndexRange_mem_iff [100, 150, 300, 350] 120 300 (by decide) (by decide) 2 (by decide)

/-- C5: for a non-decreasing timestamp array `T` and a window `[a, b]` with
`a ≤ b`, the index pair satisfies `idx_start ≤ idx_end ≤ N`; the two are equal
when no timestamp lies in the window, and the skip test `idx_end <= idx_start`
of the frame loop fires exactly then. -/
theorem windowIndexRange_valid (T : List Int) (a b : Int)
    (hT : T.Pairwise (· ≤ ·)) (hab : a ≤ b) :
    (windowIndexRange T a b).1 ≤ (windowIndexRange T a b).2 ∧
    (windowIndexRange T a b).2 ≤ T.length ∧
    ((∀ t ∈ T, ¬ (a ≤ t ∧ t ≤ b)) →
      (windowIndexRange T a b).2 = (windowIndexRange T a b).1) ∧
    (skipFrame T a b = true ↔ ∀ t ∈ T, ¬ (a ≤ t ∧ t ≤ b)) := by
  obtain ⟨hlN, hl1, hl2⟩ := lowerBound_spec T a hT
  obtain ⟨huN, hu1, hu2⟩ := upperBound_spec T b hT
  have hle : lowerBound T a ≤ upperBound T b := by
    by_contra hc
    have hi : upperBound T b < T.length := by omega
    have h1 := hl1 (upperBound T b) hi (by omega)
    have h2 := hu2 (upperBound T b) hi (le_refl _)
    omega
  have hempty : (∀ t ∈ T, ¬ (a ≤ t ∧ t ≤ b)) → upperBound T b = lowerBound T a := by
    intro hno
    by_contra hne
    have hlt : lowerBound T a < upperBound T b := by omega
    have hi : lowerBound T a < T.length := by omega
    exact hno _ (List.getElem_mem hi) ⟨hl2 _ hi (le_refl _), hu1 _ hi hlt⟩
  refine ⟨hle, huN, hempty, ?_⟩
  show decide (upperBound T b ≤ lowerBound T a) = true ↔ _
  rw [decide_eq_true_iff]
  constructor
  · intro hskip t ht hw
    obtain ⟨i, hi, rfl⟩ := List.getElem_of_mem ht
    have h1 : lowerBound T a ≤ i := by
      by_contra hc
      have := hl1 i hi (by omega)
      omega
    have h2 : i < upperBound T b := by
      by_contra hc
      have := hu2 i hi (by omega)
      omega
    omega
  · intro hno
    rw [hempty hno]

theorem windowIndexRange_valid_witness :
    (windowIndexRange [100, 150, 300, 350] 160 290).1 ≤
      (windowIndexRange [100, 150, 300, 350] 160 290).2 ∧
    (windowIndexRange [100, 150, 300, 350] 160 290).2 =
      (windowIndexRange [100, 150, 300, 350] 160 290).1 ∧
    skipFrame [100, 150, 300, 350] 160 290 = true :=
  ⟨(windowIndexRange_valid [100, 150, 300, 350] 160 290 (by decide) (by decide)).1,
   (windowIndexRange_valid [100, 150, 300, 350] 160 290 (by decide) (by decide)).2.2.1
     (by decide),
   (windowIndexRange_valid [100, 150, 300, 350] 160 290 (by decide) (by decide)).2.2.2.mpr
     (by decide)⟩



/-! ## Properties of the accumulation -/

theorem checkedInt_eq_some_iff (v r : Int) :
    checkedInt v = some r ↔ (INT_MIN ≤ v ∧ v ≤ INT_MAX) ∧ r = v := by
  unfold checkedInt
  split
  · next h => simp [h, eq_comm]
  · next h => simp [h]

theorem checkedInt_of_range (v : Int) (h1 : INT_MIN ≤ v) (h2 : v ≤ INT_MAX) :
    checkedInt v = some v := by
  simp [checkedInt, h1, h2]

theorem increment_eq_some_iff (cnt : List Int) (hr : inRange cnt) (idx : Int) (r : List Int) :
    increment cnt idx = some r ↔
      ∃ (k : Nat) (hk : k < cnt.length), idx = (k : Int) ∧ cnt[k] + 1 ≤ INT_MAX ∧
        r = cnt.set k (cnt[k] + 1) := by
  unfold increment
  by_cases h0 : 0 ≤ idx
  · rw [if_pos h0]
    obtain ⟨k, rfl⟩ := Int.eq_ofNat_of_zero_le h0
    simp only [Int.toNat_ofNat]
    by_cases hk : k < cnt.length
    · rw [List.getElem?_eq_getElem hk]
      have hv := hr _ (List.getElem_mem hk)
      simp only [Option.map_eq_some', checkedInt_eq_some_iff]
      constructor
      · rintro ⟨a, ⟨⟨_, h2⟩, rfl⟩, rfl⟩
        exact ⟨k, hk, rfl, h2, rfl⟩
      · rintro ⟨k', hk', he, h2, rfl⟩
        have : k' = k := by omega
        subst this
        refine ⟨_, ⟨⟨?_, h2⟩, rfl⟩, rfl⟩
        have := hv.1
        simp only [INT_MIN]; omega
    · rw [List.getElem?_eq_none (by omega)]
      constructor
      · intro h; cases h
      · rintro ⟨k', hk', he, _⟩
        omega
  · rw [if_neg h0]
    constructor
    · intro h; cases h
    · rintro ⟨k', hk', he, _⟩
      omega

theorem inRange_set (cnt : List Int) (hr : inRange cnt) (k : Nat) (v : Int)
    (h0 : 0 ≤ v) (h1 : v ≤ INT_MAX) : inRange (cnt.set k v) := by
  intro u hu
  rcases List.mem_or_eq_of_mem_set hu with h | h
  · exact hr u h
  · subst h; exact ⟨h0, h1⟩

theorem bump_length (cnt : List Int) (g : Nat → Nat) : (bump cnt g).length = cnt.length := by
  simp [bump]

theorem bump_getElem (cnt : List Int) (g : Nat → Nat) (k : Nat) (hk : k < cnt.length)
    (hb : k < (bump cnt g).length) : (bump cnt g)[k] = cnt[k] + (g k : Int) := by
  simp [bump, hk]

/-- Two bumped vectors agree when they agree entry by entry. -/
theorem bump_congr (a b : List Int) (g h : Nat → Nat) (hlen : a.length = b.length)
    (hk : ∀ k, k < a.length → a.getD k 0 + (g k : Int) = b.getD k 0 + (h k : Int)) :
    bump a g = bump b h := by
  unfold bump
  rw [hlen]
  apply List.map_congr_left
  intro k hk'
  rw [List.mem_range] at hk'
  exact hk k (by omega)

theorem bump_zero (cnt : List Int) : bump cnt (fun _ => 0) = cnt := by
  apply List.ext_getElem (bump_length _ _)
  intro k h1 h2
  rw [bump_getElem cnt _ k h2 h1]
  simp

theorem accumulateEvent_eq_some_iff (f : EventFrame) (x y p : Int) (cOn cOff : List Int)
    (rOn : inRange cOn) (rOff : inRange cOff) (r : List Int × List Int) :
    accumulateEvent f x y p (cOn, cOff) = some r ↔
      ∃ k : Nat, pixelIndex f x y = some (k : Int) ∧
        ((p = 1 ∧ ∃ hk : k < cOn.length, cOn[k] + 1 ≤ INT_MAX ∧
            r = (cOn.set k (cOn[k] + 1), cOff)) ∨
         (p ≠ 1 ∧ ∃ hk : k < cOff.length, cOff[k] + 1 ≤ INT_MAX ∧
            r = (cOn, cOff.set k (cOff[k] + 1)))) := by
  unfold accumulateEvent
  cases hpi : pixelIndex f x y with
  | none => simp
  | some idx =>
    by_cases hp : p = 1
    · simp only [hp, if_true, Option.bind_eq_bind, Option.some_bind, Option.pure_def,
        Option.bind_eq_some, increment_eq_some_iff cOn rOn, Option.some.injEq]
      constructor
      · rintro ⟨a, ⟨k, hk, rfl, hb, rfl⟩, rfl⟩
        exact ⟨k, rfl, Or.inl ⟨trivial, hk, hb, rfl⟩⟩
      · rintro ⟨k, hk, h | h⟩
        · obtain ⟨_, hk', hb, rfl⟩ := h
          exact ⟨_, ⟨k, hk', hk, hb, rfl⟩, rfl⟩
        · exact absurd rfl h.1
    · simp only [hp, if_false, Option.bind_eq_bind, Option.some_bind, Option.pure_def,
        Option.bind_eq_some, increment_eq_some_iff cOff rOff, Option.some.injEq]
      constructor
      · rintro ⟨a, ⟨k, hk, rfl, hb, rfl⟩, rfl⟩
        exact ⟨k, rfl, Or.inr ⟨hp, hk, hb, rfl⟩⟩
      · rintro ⟨k, hk, h | h⟩
        · exact h.1.elim
        · obtain ⟨_, hk', hb, rfl⟩ := h
          exact ⟨_, ⟨k, hk', hk, hb, rfl⟩, rfl⟩

theorem hitOn_cons (f : EventFrame) (e : Int × Int × Int) (es : List (Int × Int × Int))
    (k : Nat) : hitOn f (e :: es) k =
      hitOn f es k + if pixelIndex f e.1 e.2.1 = some (k : Int) ∧ e.2.2 = 1 then 1 else 0 := by
  simp [hitOn, List.countP_cons]

theorem hitOff_cons (f : EventFrame) (e : Int × Int × Int) (es : List (Int × Int × Int))
    (k : Nat) : hitOff f (e :: es) k =
      hitOff f es k + if pixelIndex f e.1 e.2.1 = some (k : Int) ∧ e.2.2 ≠ 1 then 1 else 0 := by
  simp [hitOff, List.countP_cons]

/-- Incrementing counter `k` accounts for one more event with index `k`. -/
theorem getD_set_add (cnt : List Int) (k : Nat) (hk : k < cnt.length) (a b : Nat) (k1 : Nat)
    (hb : b = a + if k = k1 then 1 else 0) :
    (cnt.set k (cnt[k] + 1)).getD k1 0 + (a : Int) = cnt.getD k1 0 + (b : Int) := by
  subst hb
  by_cases h : k = k1
  · subst h
    simp [hk]
    omega
  · simp [h]

theorem step_on (f : EventFrame) (e : Int × Int × Int) (es : List (Int × Int × Int))
    (cnt : List Int) (k : Nat) (hk : k < cnt.length)
    (hpi : pixelIndex f e.1 e.2.1 = some (k : Int)) (hp : e.2.2 = 1) (k1 : Nat) :
    (cnt.set k (cnt[k] + 1)).getD k1 0 + (hitOn f es k1 : Int) =
        cnt.getD k1 0 + (hitOn f (e :: es) k1 : Int) ∧
      hitOff f (e :: es) k1 = hitOff f es k1 := by
  constructor
  · apply getD_set_add cnt k hk
    rw [hitOn_cons, hpi]
    simp [hp]
  · rw [hitOff_cons]
    simp [hp]

theorem step_off (f : EventFrame) (e : Int × Int × Int) (es : List (Int × Int × Int))
    (cnt : List Int) (k : Nat) (hk : k < cnt.length)
    (hpi : pixelIndex f e.1 e.2.1 = some (k : Int)) (hp : e.2.2 ≠ 1) (k1 : Nat) :
    (cnt.set k (cnt[k] + 1)).getD k1 0 + (hitOff f es k1 : Int) =
        cnt.getD k1 0 + (hitOff f (e :: es) k1 : Int) ∧
      hitOn f (e :: es) k1 = hitOn f es k1 := by
  constructor
  · apply getD_set_add cnt k hk
    rw [hitOff_cons, hpi]
    simp [hp]
  · rw [hitOn_cons]
    simp [hp]

/-- The accumulation loop succeeds exactly when every event has an index inside
the counter vectors and no counter passes `INT_MAX`; the counters then hold the
initial values plus the numbers of events per index. -/
theorem accumulateEvents_eq_some_iff (f : EventFrame) (n : Nat)
    (es : List (Int × Int × Int)) :
    ∀ (cOn cOff : List Int), cOn.length = n → cOff.length = n → inRange cOn → inRange cOff →
    ∀ r, accumulateEvents f es (cOn, cOff) = some r ↔
      validEvents f n es ∧
      (∀ k, k < n → cOn.getD k 0 + (hitOn f es k : Int) ≤ INT_MAX ∧
        cOff.getD k 0 + (hitOff f es k : Int) ≤ INT_MAX) ∧
      r = (bump cOn (hitOn f es), bump cOff (hitOff f es)) := by
  induction es with
  | nil =>
    intro cOn cOff hOn hOff rOn rOff r
    have h1 : hitOn f [] = fun _ => 0 := by funext k; simp [hitOn]
    have h2 : hitOff f [] = fun _ => 0 := by funext k; simp [hitOff]
    rw [h1, h2, bump_zero, bump_zero]
    simp only [accumulateEvents, Option.some.injEq, validEvents, List.not_mem_nil,
      false_implies, implies_true, true_and, Nat.cast_zero, add_zero]
    constructor
    · intro h
      refine ⟨fun k hk => ?_, h.symm⟩
      rw [List.getD_eq_getElem _ _ (by omega), List.getD_eq_getElem _ _ (by omega)]
      exact ⟨(rOn _ (List.getElem_mem _)).2, (rOff _ (List.getElem_mem _)).2⟩
    · intro h; exact h.2.symm
  | cons e es ih =>
    intro cOn cOff hOn hOff rOn rOff r
    rw [accumulateEvents, Option.bind_eq_some]
    constructor
    · rintro ⟨c1, hstep, hrest⟩
      rw [accumulateEvent_eq_some_iff f _ _ _ cOn cOff rOn rOff] at hstep
      obtain ⟨k, hpi, ⟨hp, hk, hb, rfl⟩ | ⟨hp, hk, hb, rfl⟩⟩ := hstep
      · have h0 := (rOn _ (List.getElem_mem hk)).1
        obtain ⟨hv, hB, rfl⟩ := (ih (cOn.set k (cOn[k] + 1)) cOff (by simp [hOn]) hOff
          (inRange_set cOn rOn k _ (by omega) hb) rOff r).mp hrest
        refine ⟨?_, ?_, ?_⟩
        · intro e1 he1
          rcases List.mem_cons.mp he1 with rfl | h
          · exact ⟨k, by omega, hpi⟩
          · exact hv e1 h
        · intro k1 hk1
          have hs := step_on f e es cOn k hk hpi hp k1
          rw [← hs.1, hs.2]
          exact hB k1 hk1
        · congr 1
          · exact bump_congr _ _ _ _ (by simp) fun k1 _ => (step_on f e es cOn k hk hpi hp k1).1
          · exact bump_congr _ _ _ _ rfl fun k1 _ => by
              rw [(step_on f e es cOn k hk hpi hp k1).2]
      · have h0 := (rOff _ (List.getElem_mem hk)).1
        obtain ⟨hv, hB, rfl⟩ := (ih cOn (cOff.set k (cOff[k] + 1)) hOn (by simp [hOff]) rOn
          (inRange_set cOff rOff k _ (by omega) hb) r).mp hrest
        refine ⟨?_, ?_, ?_⟩
        · intro e1 he1
          rcases List.mem_cons.mp he1 with rfl | h
          · exact ⟨k, by omega, hpi⟩
          · exact hv e1 h
        · intro k1 hk1
          have hs := step_off f e es cOff k hk hpi hp k1
          rw [← hs.1, hs.2]
          exact hB k1 hk1
        · congr 1
          · exact bump_congr _ _ _ _ rfl fun k1 _ => by
              rw [(step_off f e es cOff k hk hpi hp k1).2]
          · exact bump_congr _ _ _ _ (by simp) fun k1 _ => (step_off f e es cOff k hk hpi hp k1).1
    · rintro ⟨hv, hB, rfl⟩
      obtain ⟨k, hkn, hpi⟩ := hv e (List.mem_cons_self _ _)
      have hves : validEvents f n es := fun e1 he1 => hv e1 (List.mem_cons_of_mem _ he1)
      by_cases hp : e.2.2 = 1
      · have hk : k < cOn.length := by omega
        have h0 := (rOn _ (List.getElem_mem hk)).1
        have hs := step_on f e es cOn k hk hpi hp
        have hb : cOn[k] + 1 ≤ INT_MAX := by
          have h1 := (hB k hkn).1
          have h2 := (hs k).1
          rw [List.getD_eq_getElem _ _ hk] at h1
          rw [List.getD_eq_getElem _ _ hk, List.getD_eq_getElem _ _ (by simp [hk])] at h2
          simp only [List.getElem_set_self] at h2
          omega
        refine ⟨(cOn.set k (cOn[k] + 1), cOff), ?_, ?_⟩
        · rw [accumulateEvent_eq_some_iff f _ _ _ cOn cOff rOn rOff]
          exact ⟨k, hpi, Or.inl ⟨hp, hk, hb, rfl⟩⟩
        · rw [ih (cOn.set k (cOn[k] + 1)) cOff (by simp [hOn]) hOff
            (inRange_set cOn rOn k _ (by omega) hb) rOff]
          refine ⟨hves, fun k1 hk1 => ?_, ?_⟩
          · rw [(hs k1).1, ← (hs k1).2]
            exact hB k1 hk1
          · congr 1
            · exact bump_congr _ _ _ _ (by simp) fun k1 _ => ((hs k1).1).symm
            · exact bump_congr _ _ _ _ rfl fun k1 _ => by rw [(hs k1).2]
      · have hk : k < cOff.length := by omega
        have h0 := (rOff _ (List.getElem_mem hk)).1
        have hs := step_off f e es cOff k hk hpi hp
        have hb : cOff[k] + 1 ≤ INT_MAX := by
          have h1 := (hB k hkn).2
          have h2 := (hs k).1
          rw [List.getD_eq_getElem _ _ hk] at h1
          rw [List.getD_eq_getElem _ _ hk, List.getD_eq_getElem _ _ (by simp [hk])] at h2
          simp only [List.getElem_set_self] at h2
          omega
        refine ⟨(cOn, cOff.set k (cOff[k] + 1)), ?_, ?_⟩
        · rw [accumulateEvent_eq_some_iff f _ _ _ cOn cOff rOn rOff]
          exact ⟨k, hpi, Or.inr ⟨hp, hk, hb, rfl⟩⟩
        · rw [ih cOn (cOff.set k (cOff[k] + 1)) hOn (by simp [hOff]) rOn
            (inRange_set cOff rOff k _ (by omega) hb)]
          refine ⟨hves, fun k1 hk1 => ?_, ?_⟩
          · rw [(hs k1).1, ← (hs k1).2]
            exact hB k1 hk1
          · congr 1
            · exact bump_congr _ _ _ _ rfl fun k1 _ => by rw [(hs k1).2]
            · exact bump_congr _ _ _ _ (by simp) fun k1 _ => ((hs k1).1).symm

/-! ### Geometry that fits an `int` -/

theorem clampCoord_bounds (v size : Int) (hs : 1 ≤ size) :
    0 ≤ clampCoord v size ∧ clampCoord v size < size ∧
      max 0 (min v (size - 1)) = clampCoord v size := by
  unfold clampCoord
  omega

theorem geometry_bounds (f : EventFrame) (hh : 1 ≤ f.height) (hw : 1 ≤ f.width)
    (hg : f.height * f.width ≤ INT_MAX) :
    f.height ≤ INT_MAX ∧ f.width ≤ INT_MAX := by
  constructor
  · calc f.height = f.height * 1 := (mul_one _).symm
      _ ≤ f.height * f.width := Int.mul_le_mul_of_nonneg_left hw (by omega)
      _ ≤ INT_MAX := hg
  · calc f.width = 1 * f.width := (one_mul _).symm
      _ ≤ f.height * f.width := Int.mul_le_mul_of_nonneg_right hh (by omega)
      _ ≤ INT_MAX := hg

/-- A row-major index of an in-frame pixel lies inside the frame. -/
theorem rowMajor_bounds (h w i j : Int) (hi0 : 0 ≤ i) (hi : i < h) (hj0 : 0 ≤ j) (hj : j < w) :
    0 ≤ i * w ∧ i * w ≤ i * w + j ∧ i * w + j < h * w := by
  have h1 : 0 ≤ i * w := Int.mul_nonneg hi0 (by omega)
  have h2 : (i + 1) * w ≤ h * w := Int.mul_le_mul_of_nonneg_right (by omega) (by omega)
  have h3 : (i + 1) * w = i * w + w := by ring
  omega

/-- A row-major index determines its row and column. -/
theorem rowMajor_inj (w i j i1 j1 : Int) (hj0 : 0 ≤ j) (hj : j < w) (hj10 : 0 ≤ j1)
    (hj1 : j1 < w) (h : i * w + j = i1 * w + j1) : i = i1 ∧ j = j1 := by
  have hi : i = i1 := by
    rcases lt_trichotomy i i1 with hlt | heq | hgt
    · exfalso
      have h2 : (i + 1) * w ≤ i1 * w := Int.mul_le_mul_of_nonneg_right (by omega) (by omega)
      have h3 : (i + 1) * w = i * w + w := by ring
      omega
    · exact heq
    · exfalso
      have h2 : (i1 + 1) * w ≤ i * w := Int.mul_le_mul_of_nonneg_right (by omega) (by omega)
      have h3 : (i1 + 1) * w = i1 * w + w := by ring
      omega
  subst hi
  exact ⟨rfl, by omega⟩

theorem pixelIndex_of_geometry (f : EventFrame) (hh : 1 ≤ f.height) (hw : 1 ≤ f.width)
    (hg : f.height * f.width ≤ INT_MAX) (x y : Int) :
    pixelIndex f x y =
      some (clampCoord y f.height * f.width + clampCoord x f.width) := by
  obtain ⟨hH, hW⟩ := geometry_bounds f hh hw hg
  obtain ⟨hx0, hx1, hx⟩ := clampCoord_bounds x f.width hw
  obtain ⟨hy0, hy1, hy⟩ := clampCoord_bounds y f.height hh
  obtain ⟨hr0, hr1, hr2⟩ := rowMajor_bounds f.height f.width _ _ hy0 hy1 hx0 hx1
  unfold pixelIndex
  rw [checkedInt_of_range (f.width - 1) (by simp only [INT_MIN]; omega) (by omega),
    checkedInt_of_range (f.height - 1) (by simp only [INT_MIN]; omega) (by omega)]
  simp only [Option.bind_eq_bind, Option.some_bind, hx, hy]
  rw [checkedInt_of_range _ (by simp only [INT_MIN]; omega) (by omega)]
  simp only [Option.some_bind]
  rw [checkedInt_of_range _ (by simp only [INT_MIN]; omega) (by omega)]

/-! ### From columns to events -/

theorem accumulate_eq_accumulateEvents (f : EventFrame) (x y pol : List Int)
    (hxy : x.length = y.length) (hyp : y.length = pol.length) (cnt : List Int × List Int) :
    accumulate f x y pol cnt = accumulateEvents f (zipEvents x y pol) cnt := by
  induction x generalizing y pol cnt with
  | nil => simp [accumulate, zipEvents, accumulateEvents]
  | cons xv xs ih =>
    cases y with
    | nil => simp at hxy
    | cons yv ys =>
      cases pol with
      | nil => simp at hyp
      | cons pv ps =>
        simp only [List.length_cons, Nat.add_right_cancel_iff] at hxy hyp
        simp only [accumulate, zipEvents, List.zip_cons_cons, accumulateEvents,
          Option.bind_eq_bind]
        congr 1
        funext c1
        exact ih ys ps hxy hyp c1

theorem zipEvents_append (x1 y1 p1 x2 y2 p2 : List Int)
    (hxy : x1.length = y1.length) (hyp : y1.length = p1.length) :
    zipEvents (x1 ++ x2) (y1 ++ y2) (p1 ++ p2) = zipEvents x1 y1 p1 ++ zipEvents x2 y2 p2 := by
  unfold zipEvents
  rw [List.zip_append hyp, List.zip_append (by simp [hxy, hyp])]

theorem zipEvents_length (x y pol : List Int)
    (hxy : x.length = y.length) (hyp : y.length = pol.length) :
    (zipEvents x y pol).length = x.length := by
  simp [zipEvents, hxy, hyp]

/-! ### The results of `collect` -/

theorem collect_map_of {α β : Type} (l : List α) (g : α → Option β) (h : α → β)
    (hg : ∀ a ∈ l, g a = some (h a)) : collect (l.map g) = some (l.map h) := by
  induction l with
  | nil => rfl
  | cons a l ih =>
    have h1 := hg a (List.mem_cons_self _ _)
    have h2 := ih fun b hb => hg b (List.mem_cons_of_mem _ hb)
    simp [collect, h1, h2]

theorem collect_eq_some_iff {α : Type} (l : List (Option α)) (r : List α) :
    collect l = some r ↔ l = r.map some := by
  induction l generalizing r with
  | nil =>
    cases r <;> simp [collect]
  | cons o os ih =>
    cases o with
    | none => cases r <;> simp [collect]
    | some v =>
      cases r with
      | nil =>
        simp only [collect, Option.bind_eq_bind, Option.some_bind, Option.pure_def,
          List.map_nil]
        constructor
        · intro h
          cases hc : collect os with
          | none => rw [hc] at h; cases h
          | some vs => rw [hc] at h; cases h
        · intro h; cases h
      | cons u us =>
        simp only [collect, Option.bind_eq_bind, Option.some_bind, Option.pure_def,
          Option.bind_eq_some, Option.some.injEq, List.cons.injEq, List.map_cons]
        constructor
        · rintro ⟨a, ha, rfl, rfl⟩
          exact ⟨rfl, (ih _).mp ha⟩
        · rintro ⟨rfl, h⟩
          exact ⟨us, (ih _).mpr h, rfl, rfl⟩

/-! ### The counters of a window -/

theorem inRange_replicate_zero (n : Nat) : inRange (List.replicate n 0) := by
  intro v hv
  rw [List.eq_of_mem_replicate hv]
  simp [INT_MAX]

theorem bump_replicate_zero (n : Nat) (g : Nat → Nat) :
    bump (List.replicate n 0) g = (List.range n).map fun k => (g k : Int) := by
  unfold bump
  rw [List.length_replicate]
  apply List.map_congr_left
  intro k hk
  rw [List.mem_range] at hk
  simp [hk]

/-- The counters of a window of equal-length columns exist exactly when the
number of pixels fits an `int`, every event has an index inside the vectors and
no count passes `INT_MAX`; entry `k` then holds the number of events with
index `k`. -/
theorem counters_eq_some_iff (f : EventFrame) (x y pol : List Int)
    (hxy : x.length = y.length) (hyp : y.length = pol.length) (r : List Int × List Int) :
    counters f x y pol = some r ↔
      (0 ≤ f.height * f.width ∧ f.height * f.width ≤ INT_MAX) ∧
      validEvents f (f.height * f.width).toNat (zipEvents x y pol) ∧
      (∀ k, k < (f.height * f.width).toNat →
        (hitOn f (zipEvents x y pol) k : Int) ≤ INT_MAX ∧
        (hitOff f (zipEvents x y pol) k : Int) ≤ INT_MAX) ∧
      r = ((List.range (f.height * f.width).toNat).map
              (fun k => (hitOn f (zipEvents x y pol) k : Int)),
           (List.range (f.height * f.width).toNat).map
              (fun k => (hitOff f (zipEvents x y pol) k : Int))) := by
  unfold counters
  simp only [accumulate_eq_accumulateEvents f x y pol hxy hyp]
  by_cases hn : INT_MIN ≤ f.height * f.width ∧ f.height * f.width ≤ INT_MAX
  · rw [checkedInt_of_range _ hn.1 hn.2]
    by_cases h0 : 0 ≤ f.height * f.width
    · simp only [Option.bind_eq_bind, Option.some_bind, zeroCounters, if_pos h0]
      rw [accumulateEvents_eq_some_iff f (f.height * f.width).toNat _ _ _
        (List.length_replicate _ _) (List.length_replicate _ _)
        (inRange_replicate_zero _) (inRange_replicate_zero _)]
      rw [bump_replicate_zero, bump_replicate_zero]
      constructor
      · rintro ⟨hv, hB, rfl⟩
        refine ⟨⟨h0, hn.2⟩, hv, fun k hk => ?_, rfl⟩
        have := hB k hk
        simpa [hk] using this
      · rintro ⟨_, hv, hB, rfl⟩
        refine ⟨hv, fun k hk => ?_, rfl⟩
        have := hB k hk
        simpa [hk] using this
    · simp only [Option.bind_eq_bind, Option.some_bind, zeroCounters, if_neg h0,
        Option.none_bind]
      constructor
      · intro h; cases h
      · rintro ⟨⟨h, _⟩, _⟩
        exact absurd h h0
  · have : checkedInt (f.height * f.width) = none := by
      simp only [checkedInt, if_neg hn]
    rw [this]
    simp only [Option.bind_eq_bind, Option.none_bind]
    constructor
    · intro h; cases h
    · rintro ⟨⟨h1, h2⟩, _⟩
      exact absurd ⟨by simp only [INT_MIN]; omega, h2⟩ hn

theorem validEvents_perm (f : EventFrame) (n : Nat) (es es1 : List (Int × Int × Int))
    (hp : es.Perm es1) : validEvents f n es ↔ validEvents f n es1 := by
  unfold validEvents
  constructor
  · intro h e he; exact h e (hp.mem_iff.mpr he)
  · intro h e he; exact h e (hp.mem_iff.mp he)

theorem hitOn_perm (f : EventFrame) (es es1 : List (Int × Int × Int)) (hp : es.Perm es1)
    (k : Nat) : hitOn f es k = hitOn f es1 k :=
  hp.countP_eq _

theorem hitOff_perm (f : EventFrame) (es es1 : List (Int × Int × Int)) (hp : es.Perm es1)
    (k : Nat) : hitOff f es k = hitOff f es1 k :=
  hp.countP_eq _

theorem counters_perm (f : EventFrame) (x y pol x1 y1 pol1 : List Int)
    (hxy : x.length = y.length) (hyp : y.length = pol.length)
    (hxy1 : x1.length = y1.length) (hyp1 : y1.length = pol1.length)
    (hperm : (zipEvents x y pol).Perm (zipEvents x1 y1 pol1)) :
    counters f x y pol = counters f x1 y1 pol1 := by
  apply Option.ext
  intro r
  rw [Option.mem_def, Option.mem_def,
    counters_eq_some_iff f x y pol hxy hyp, counters_eq_some_iff f x1 y1 pol1 hxy1 hyp1,
    validEvents_perm f _ _ _ hperm,
    funext (hitOn_perm f _ _ hperm), funext (hitOff_perm f _ _ hperm)]

/-! ### Merging partial accumulations -/

theorem mergeCounters_map (l : List Nat) (a b : Nat → Nat) (r : List Int) :
    mergeCounters (l.map fun k => (a k : Int)) (l.map fun k => (b k : Int)) = some r ↔
      (∀ k ∈ l, (a k : Int) + (b k : Int) ≤ INT_MAX) ∧
        r = l.map fun k => ((a k + b k : Nat) : Int) := by
  unfold mergeCounters
  induction l generalizing r with
  | nil =>
    simp only [List.map_nil, List.zipWith_nil_left, collect, Option.some.injEq,
      List.not_mem_nil, false_implies, implies_true, true_and]
    exact eq_comm
  | cons k l ih =>
    simp only [List.map_cons, List.zipWith_cons_cons, collect, Option.bind_eq_bind,
      Option.pure_def, Option.bind_eq_some, checkedInt_eq_some_iff, List.mem_cons,
      forall_eq_or_imp]
    constructor
    · rintro ⟨v, ⟨⟨_, h2⟩, rfl⟩, vs, hvs, hr⟩
      obtain ⟨h3, rfl⟩ := (ih vs).mp hvs
      refine ⟨⟨h2, h3⟩, ?_⟩
      rw [← Option.some.inj hr]
      simp
    · rintro ⟨⟨h2, h3⟩, rfl⟩
      refine ⟨_, ⟨⟨?_, h2⟩, rfl⟩, _, (ih _).mpr ⟨h3, rfl⟩, ?_⟩
      · simp only [INT_MIN]; omega
      · simp

theorem hitOn_append (f : EventFrame) (es1 es2 : List (Int × Int × Int)) (k : Nat) :
    hitOn f (es1 ++ es2) k = hitOn f es1 k + hitOn f es2 k := by
  simp [hitOn, List.countP_append]

theorem hitOff_append (f : EventFrame) (es1 es2 : List (Int × Int × Int)) (k : Nat) :
    hitOff f (es1 ++ es2) k = hitOff f es1 k + hitOff f es2 k := by
  simp [hitOff, List.countP_append]

theorem validEvents_append (f : EventFrame) (n : Nat) (es1 es2 : List (Int × Int × Int)) :
    validEvents f n (es1 ++ es2) ↔ validEvents f n es1 ∧ validEvents f n es2 := by
  unfold validEvents
  constructor
  · intro h
    exact ⟨fun e he => h e (List.mem_append_left _ he),
      fun e he => h e (List.mem_append_right _ he)⟩
  · rintro ⟨h1, h2⟩ e he
    rcases List.mem_append.mp he with h | h
    · exact h1 e h
    · exact h2 e h

theorem counters_append (f : EventFrame) (x1 y1 p1 x2 y2 p2 : List Int)
    (hxy1 : x1.length = y1.length) (hyp1 : y1.length = p1.length)
    (hxy2 : x2.length = y2.length) (hyp2 : y2.length = p2.length) :
    counters f (x1 ++ x2) (y1 ++ y2) (p1 ++ p2) =
      mergeAccumulations (counters f x1 y1 p1) (counters f x2 y2 p2) := by
  apply Option.ext
  intro r
  rw [Option.mem_def, Option.mem_def,
    counters_eq_some_iff f _ _ _ (by simp [hxy1, hxy2]) (by simp [hyp1, hyp2]),
    zipEvents_append _ _ _ _ _ _ hxy1 hyp1, validEvents_append]
  simp only [hitOn_append, hitOff_append]
  unfold mergeAccumulations
  simp only [Option.bind_eq_bind, Option.pure_def, Option.bind_eq_some,
    counters_eq_some_iff f x1 y1 p1 hxy1 hyp1, counters_eq_some_iff f x2 y2 p2 hxy2 hyp2]
  constructor
  · rintro ⟨hG, ⟨hV1, hV2⟩, hB, rfl⟩
    refine ⟨_, ⟨hG, hV1, fun k hk => ?_, rfl⟩, _, ⟨hG, hV2, fun k hk => ?_, rfl⟩, ?_⟩
    · have := hB k hk
      push_cast at this
      omega
    · have := hB k hk
      push_cast at this
      omega
    · refine ⟨_, (mergeCounters_map _ _ _ _).mpr ⟨fun k hk => ?_, rfl⟩,
        _, (mergeCounters_map _ _ _ _).mpr ⟨fun k hk => ?_, rfl⟩, rfl⟩
      · have := (hB k (List.mem_range.mp hk)).1
        push_cast at this
        exact this
      · have := (hB k (List.mem_range.mp hk)).2
        push_cast at this
        exact this
  · rintro ⟨ca, ⟨hG, hV1, hB1, rfl⟩, cb, ⟨_, hV2, hB2, rfl⟩, cOn, hOn, cOff, hOff, hr⟩
    obtain ⟨hm1, rfl⟩ := (mergeCounters_map _ _ _ _).mp hOn
    obtain ⟨hm2, rfl⟩ := (mergeCounters_map _ _ _ _).mp hOff
    refine ⟨hG, ⟨hV1, hV2⟩, fun k hk => ?_, (Option.some.inj hr).symm⟩
    have h1 := hm1 k (List.mem_range.mpr hk)
    have h2 := hm2 k (List.mem_range.mpr hk)
    push_cast
    exact ⟨h1, h2⟩

/-! ### Counts per pixel -/

theorem validEvents_of_geometry (f : EventFrame) (hh : 1 ≤ f.height) (hw : 1 ≤ f.width)
    (hg : f.height * f.width ≤ INT_MAX) (es : List (Int × Int × Int)) :
    validEvents f (f.height * f.width).toNat es := by
  intro e _
  obtain ⟨hx0, hx1, _⟩ := clampCoord_bounds e.1 f.width hw
  obtain ⟨hy0, hy1, _⟩ := clampCoord_bounds e.2.1 f.height hh
  obtain ⟨hr0, hr1, hr2⟩ := rowMajor_bounds f.height f.width _ _ hy0 hy1 hx0 hx1
  refine ⟨(clampCoord e.2.1 f.height * f.width + clampCoord e.1 f.width).toNat, by omega, ?_⟩
  rw [pixelIndex_of_geometry f hh hw hg, Int.toNat_of_nonneg (by omega)]

theorem hitOn_eq_onCount (f : EventFrame) (hh : 1 ≤ f.height) (hw : 1 ≤ f.width)
    (hg : f.height * f.width ≤ INT_MAX) (x y pol : List Int) (i j : Int)
    (hi0 : 0 ≤ i) (hj0 : 0 ≤ j) (hj : j < f.width) :
    hitOn f (zipEvents x y pol) (i * f.width + j).toNat = onCount f x y pol i j := by
  unfold hitOn onCount
  apply List.countP_congr
  intro e _
  obtain ⟨hx0, hx1, _⟩ := clampCoord_bounds e.1 f.width hw
  have hk : 0 ≤ i * f.width + j := by
    have := Int.mul_nonneg hi0 (show (0 : Int) ≤ f.width by omega)
    omega
  rw [pixelIndex_of_geometry f hh hw hg, Int.toNat_of_nonneg hk]
  simp only [Option.some.injEq, decide_eq_true_eq]
  constructor
  · rintro ⟨h1, h2⟩
    obtain ⟨h3, h4⟩ := rowMajor_inj f.width _ _ _ _ hx0 hx1 hj0 hj h1
    exact ⟨h4, h3, h2⟩
  · rintro ⟨h1, h2, h3⟩
    exact ⟨by rw [h1, h2], h3⟩

theorem hitOff_eq_offCount (f : EventFrame) (hh : 1 ≤ f.height) (hw : 1 ≤ f.width)
    (hg : f.height * f.width ≤ INT_MAX) (x y pol : List Int) (i j : Int)
    (hi0 : 0 ≤ i) (hj0 : 0 ≤ j) (hj : j < f.width) :
    hitOff f (zipEvents x y pol) (i * f.width + j).toNat = offCount f x y pol i j := by
  unfold hitOff offCount
  apply List.countP_congr
  intro e _
  obtain ⟨hx0, hx1, _⟩ := clampCoord_bounds e.1 f.width hw
  have hk : 0 ≤ i * f.width + j := by
    have := Int.mul_nonneg hi0 (show (0 : Int) ≤ f.width by omega)
    omega
  rw [pixelIndex_of_geometry f hh hw hg, Int.toNat_of_nonneg hk]
  simp only [Option.some.injEq, decide_eq_true_eq]
  constructor
  · rintro ⟨h1, h2⟩
    obtain ⟨h3, h4⟩ := rowMajor_inj f.width _ _ _ _ hx0 hx1 hj0 hj h1
    exact ⟨h4, h3, h2⟩
  · rintro ⟨h1, h2, h3⟩
    exact ⟨by rw [h1, h2], h3⟩

/-- Every accumulator index below `height * width` is the row-major index of a
pixel. -/
theorem rowMajor_decompose (w : Int) (hw : 1 ≤ w) (k : Nat) :
    0 ≤ (k : Int) / w ∧ 0 ≤ (k : Int) % w ∧ (k : Int) % w < w ∧
      ((k : Int) / w * w + (k : Int) % w).toNat = k := by
  have h1 : 0 ≤ (k : Int) / w := Int.ediv_nonneg (by omega) (by omega)
  have h2 : 0 ≤ (k : Int) % w := Int.emod_nonneg _ (by omega)
  have h3 : (k : Int) % w < w := Int.emod_lt_of_pos _ (by omega)
  have h4 : (k : Int) / w * w + (k : Int) % w = k := by
    rw [mul_comm]; exact Int.ediv_add_emod _ _
  exact ⟨h1, h2, h3, by rw [h4]; simp⟩

theorem hit_le_of_count_le (f : EventFrame) (hh : 1 ≤ f.height) (hw : 1 ≤ f.width)
    (hg : f.height * f.width ≤ INT_MAX) (x y pol : List Int)
    (hcnt : ∀ i j : Int, (onCount f x y pol i j : Int) ≤ INT_MAX ∧
      (offCount f x y pol i j : Int) ≤ INT_MAX) (k : Nat) :
    (hitOn f (zipEvents x y pol) k : Int) ≤ INT_MAX ∧
      (hitOff f (zipEvents x y pol) k : Int) ≤ INT_MAX := by
  obtain ⟨h1, h2, h3, h4⟩ := rowMajor_decompose f.width hw k
  have ha := hitOn_eq_onCount f hh hw hg x y pol _ _ h1 h2 h3
  have hb := hitOff_eq_offCount f hh hw hg x y pol _ _ h1 h2 h3
  rw [h4] at ha hb
  rw [ha, hb]
  exact hcnt _ _

/-! ### The single-channel frame -/

theorem pixelValue_of_counts (f : EventFrame)
    (hg : f.height * f.width ≤ INT_MAX) (gOn gOff : Nat → Nat)
    (hB : ∀ k, (gOn k : Int) ≤ INT_MAX ∧ (gOff k : Int) ≤ INT_MAX)
    (i j : Nat) (hi : (i : Int) < f.height) (hj : (j : Int) < f.width) :
    pixelValue f
        ((List.range (f.height * f.width).toNat).map (fun k => (gOn k : Int)),
         (List.range (f.height * f.width).toNat).map (fun k => (gOff k : Int))) i j =
      some (diffValue (gOn ((i : Int) * f.width + j).toNat)
        (gOff ((i : Int) * f.width + j).toNat)) := by
  obtain ⟨hr0, hr1, hr2⟩ := rowMajor_bounds f.height f.width i j (by omega) hi (by omega) hj
  have hk : ((i : Int) * f.width + j).toNat < (f.height * f.width).toNat := by omega
  obtain ⟨ha, hb⟩ := hB ((i : Int) * f.width + j).toNat
  unfold pixelValue
  rw [checkedInt_of_range _ (by simp only [INT_MIN]; omega) (by omega)]
  simp only [Option.bind_eq_bind, Option.some_bind]
  rw [checkedInt_of_range _ (by simp only [INT_MIN]; omega) (by omega)]
  simp only [Option.some_bind, if_neg (show ¬ ((i : Int) * f.width + j < 0) by omega),
    List.getElem?_map, List.getElem?_range hk, Option.map_some']
  rw [checkedInt_of_range _ (by simp only [INT_MIN, INT_MAX] at *; omega)
    (by simp only [INT_MIN, INT_MAX] at *; omega)]
  rfl

theorem grayFrame_of_counts (f : EventFrame) (hh : 1 ≤ f.height) (hw : 1 ≤ f.width)
    (hg : f.height * f.width ≤ INT_MAX) (gOn gOff : Nat → Nat)
    (hB : ∀ k, (gOn k : Int) ≤ INT_MAX ∧ (gOff k : Int) ≤ INT_MAX) :
    grayFrame f
        ((List.range (f.height * f.width).toNat).map (fun k => (gOn k : Int)),
         (List.range (f.height * f.width).toNat).map (fun k => (gOff k : Int))) =
      some ((List.range f.height.toNat).map fun (i : Nat) =>
        (List.range f.width.toNat).map fun (j : Nat) =>
          diffValue (gOn ((i : Int) * f.width + j).toNat)
            (gOff ((i : Int) * f.width + j).toNat)) := by
  unfold grayFrame
  rw [if_neg (by omega)]
  apply collect_map_of
  intro i hi
  rw [List.mem_range] at hi
  apply collect_map_of
  intro j hj
  rw [List.mem_range] at hj
  exact pixelValue_of_counts f hg gOn gOff hB i j (by omega) (by omega)

/-- With a geometry that fits an `int` and counts that fit an `int`, the
builder returns the frame of the thresholded count differences. -/
theorem constructGray_eq (f : EventFrame) (x y pol time : List Int)
    (hh : 1 ≤ f.height) (hw : 1 ≤ f.width) (hg : f.height * f.width ≤ INT_MAX)
    (hxy : x.length = y.length) (hyp : y.length = pol.length)
    (hcnt : ∀ i j : Int, (onCount f x y pol i j : Int) ≤ INT_MAX ∧
      (offCount f x y pol i j : Int) ≤ INT_MAX) :
    constructGray f x y pol time =
      some ((List.range f.height.toNat).map fun (i : Nat) =>
        (List.range f.width.toNat).map fun (j : Nat) =>
          diffValue (onCount f x y pol i j) (offCount f x y pol i j)) := by
  have hpos : 0 ≤ f.height * f.width := Int.mul_nonneg (by omega) (by omega)
  have hB := hit_le_of_count_le f hh hw hg x y pol hcnt
  have hc : counters f x y pol = some
      ((List.range (f.height * f.width).toNat).map
          (fun k => (hitOn f (zipEvents x y pol) k : Int)),
       (List.range (f.height * f.width).toNat).map
          (fun k => (hitOff f (zipEvents x y pol) k : Int))) :=
    (counters_eq_some_iff f x y pol hxy hyp _).mpr
      ⟨⟨hpos, hg⟩, validEvents_of_geometry f hh hw hg _, fun k _ => hB k, rfl⟩
  unfold constructGray
  rw [hc]
  simp only [Option.bind_eq_bind, Option.some_bind]
  rw [grayFrame_of_counts f hh hw hg _ _ hB]
  congr 1
  apply List.map_congr_left
  intro i hi
  rw [List.mem_range] at hi
  apply List.map_congr_left
  intro j hj
  rw [List.mem_range] at hj
  rw [hitOn_eq_onCount f hh hw hg x y pol i j (by omega) (by omega) (by omega),
    hitOff_eq_offCount f hh hw hg x y pol i j (by omega) (by omega) (by omega)]

theorem pixelAt_map_range (h w : Nat) (g : Nat → Nat → Nat) (i j : Nat)
    (hi : i < h) (hj : j < w) :
    pixelAt ((List.range h).map fun i => (List.range w).map fun j => g i j) i j
      = some (g i j) := by
  simp [pixelAt, List.getElem?_map, List.getElem?_range, hi, hj]

theorem onCount_le_length (f : EventFrame) (x y pol : List Int) (i j : Int) :
    onCount f x y pol i j ≤ (zipEvents x y pol).length :=
  List.countP_le_length _

theorem offCount_le_length (f : EventFrame) (x y pol : List Int) (i j : Int) :
    offCount f x y pol i j ≤ (zipEvents x y pol).length :=
  List.countP_le_length _

/-- A counter cannot hold more than `INT_MAX` events: on a 1 x 1 frame, `n`
"on" events at pixel (0, 0) with `n` above `INT_MAX` leave no defined counters. -/
theorem counters_replicate_overflow (n : Nat) (hn : INT_MAX < (n : Int)) :
    counters ⟨1, 1, false⟩ (List.replicate n 0) (List.replicate n 0) (List.replicate n 1)
      = none := by
  cases hc : counters ⟨1, 1, false⟩ (List.replicate n 0) (List.replicate n 0)
      (List.replicate n 1) with
  | none => rfl
  | some r =>
    exfalso
    obtain ⟨_, _, hB, _⟩ := (counters_eq_some_iff _ _ _ _ (by simp) (by simp) r).mp hc
    have h0 := (hB 0 (by decide)).1
    have hz : zipEvents (List.replicate n 0) (List.replicate n 0) (List.replicate n 1)
        = List.replicate n ((0 : Int), (0 : Int), (1 : Int)) := by
      simp [zipEvents, List.zip_replicate']
    have hpi : pixelIndex ⟨1, 1, false⟩ 0 0 = some ((0 : Nat) : Int) := by decide
    rw [hz, hitOn, List.countP_replicate] at h0
    simp only [hpi, and_self, decide_True, if_true] at h0
    omega

/-! ### No event is dropped -/

theorem sum_set_succ (l : List Int) (k : Nat) (hk : k < l.length) :
    (l.set k (l[k] + 1)).sum = l.sum + 1 := by
  induction l generalizing k with
  | nil => simp at hk
  | cons a l ih =>
    cases k with
    | zero => simp; ring
    | succ k =>
      simp only [List.length_cons, Nat.add_lt_add_iff_right] at hk
      simp only [List.set_cons_succ, List.getElem_cons_succ, List.sum_cons, ih k hk]
      ring

theorem accumulateEvents_sum (f : EventFrame) (es : List (Int × Int × Int)) :
    ∀ (cOn cOff : List Int), inRange cOn → inRange cOff →
    ∀ r, accumulateEvents f es (cOn, cOff) = some r →
      r.1.sum + r.2.sum = cOn.sum + cOff.sum + (es.length : Int) ∧
        r.1.length = cOn.length ∧ r.2.length = cOff.length := by
  induction es with
  | nil =>
    intro cOn cOff _ _ r hr
    simp only [accumulateEvents, Option.some.injEq] at hr
    subst hr
    simp
  | cons e es ih =>
    intro cOn cOff rOn rOff r hr
    rw [accumulateEvents, Option.bind_eq_some] at hr
    obtain ⟨c1, hstep, hrest⟩ := hr
    rw [accumulateEvent_eq_some_iff f _ _ _ cOn cOff rOn rOff] at hstep
    obtain ⟨k, _, ⟨_, hk, hb, rfl⟩ | ⟨_, hk, hb, rfl⟩⟩ := hstep
    · have h0 := (rOn _ (List.getElem_mem hk)).1
      obtain ⟨h1, h2, h3⟩ := ih _ _ (inRange_set cOn rOn k _ (by omega) hb) rOff r hrest
      rw [sum_set_succ cOn k hk] at h1
      rw [List.length_set] at h2
      refine ⟨?_, h2, h3⟩
      rw [h1, List.length_cons]
      push_cast
      ring
    · have h0 := (rOff _ (List.getElem_mem hk)).1
      obtain ⟨h1, h2, h3⟩ := ih _ _ rOn (inRange_set cOff rOff k _ (by omega) hb) r hrest
      rw [sum_set_succ cOff k hk] at h1
      rw [List.length_set] at h3
      refine ⟨?_, h2, h3⟩
      rw [h1, List.length_cons]
      push_cast
      ring

theorem counters_sum (f : EventFrame) (x y pol : List Int)
    (hxy : x.length = y.length) (hyp : y.length = pol.length) (r : List Int × List Int)
    (hr : counters f x y pol = some r) :
    r.1.sum + r.2.sum = (x.length : Int) ∧ r.1.length = (f.height * f.width).toNat ∧
      r.2.length = (f.height * f.width).toNat := by
  unfold counters at hr
  simp only [accumulate_eq_accumulateEvents f x y pol hxy hyp, Option.bind_eq_bind,
    Option.bind_eq_some, checkedInt_eq_some_iff] at hr
  obtain ⟨n, ⟨_, rfl⟩, z1, hz1, z2, hz2, hacc⟩ := hr
  unfold zeroCounters at hz1 hz2
  split at hz1
  · rw [if_pos (by assumption)] at hz2
    cases hz1
    cases hz2
    obtain ⟨h1, h2, h3⟩ := accumulateEvents_sum f _ _ _ (inRange_replicate_zero _)
      (inRange_replicate_zero _) r hacc
    rw [zipEvents_length x y pol hxy hyp] at h1
    simp only [List.sum_replicate, smul_zero, zero_add, List.length_replicate] at h1 h2 h3
    exact ⟨h1, h2, h3⟩
  · cases hz1

/-! ### The Difference Frame -/

/-- C6 (amended): for every height >= 1 and width >= 1 whose product fits an
`int`, and equal-length event columns in which no pixel collects more than
`INT_MAX` on events or more than `INT_MAX` off events, `EventFrame::construct`
builds a single-channel frame of `height` rows and `width` columns whose pixel
(row `i`, column `j`) is 255 if `on_count - off_count > 0`, 0 if it is
negative, and 127 otherwise, the counts being those of the on (`pol = 1`) and
off events whose clamped coordinates are `(j, i)`. In particular the events
(10,10,on), (10,10,off), (5,5,on), (5,5,on) on a 20 x 20 frame give 127 at
pixel (10,10), 255 at pixel (5,5) and 127 everywhere else. -/
theorem constructGray_spec :
    (∀ (f : EventFrame) (x y pol time : List Int),
      1 ≤ f.height → 1 ≤ f.width → f.height * f.width ≤ INT_MAX →
      x.length = y.length → y.length = pol.length →
      (∀ i j : Int, (onCount f x y pol i j : Int) ≤ INT_MAX ∧
        (offCount f x y pol i j : Int) ≤ INT_MAX) →
      ∃ frame, constructGray f x y pol time = some frame ∧
        frame.length = f.height.toNat ∧ (∀ row ∈ frame, row.length = f.width.toNat) ∧
        ∀ i j : Nat, (i : Int) < f.height → (j : Int) < f.width →
          pixelAt frame i j =
            some (diffValue (onCount f x y pol i j) (offCount f x y pol i j))) ∧
    (∃ frame,
      constructGray ⟨20, 20, false⟩ [10, 10, 5, 5] [10, 10, 5, 5] [1, 0, 1, 1]
        [100, 150, 300, 350] = some frame ∧
      pixelAt frame 10 10 = some 127 ∧ pixelAt frame 5 5 = some 255 ∧
      ∀ i j : Nat, i < 20 → j < 20 → (i, j) ≠ (5, 5) → pixelAt frame i j = some 127) := by
  have gen : ∀ (f : EventFrame) (x y pol time : List Int),
      1 ≤ f.height → 1 ≤ f.width → f.height * f.width ≤ INT_MAX →
      x.length = y.length → y.length = pol.length →
      (∀ i j : Int, (onCount f x y pol i j : Int) ≤ INT_MAX ∧
        (offCount f x y pol i j : Int) ≤ INT_MAX) →
      ∃ frame, constructGray f x y pol time = some frame ∧
        frame.length = f.height.toNat ∧ (∀ row ∈ frame, row.length = f.width.toNat) ∧
        ∀ i j : Nat, (i : Int) < f.height → (j : Int) < f.width →
          pixelAt frame i j =
            some (diffValue (onCount f x y pol i j) (offCount f x y pol i j)) := by
    intro f x y pol time hh hw hg hxy hyp hcnt
    refine ⟨_, constructGray_eq f x y pol time hh hw hg hxy hyp hcnt, by simp, ?_, ?_⟩
    · intro row hrow
      rw [List.mem_map] at hrow
      obtain ⟨i, _, rfl⟩ := hrow
      simp
    · intro i j hi hj
      exact pixelAt_map_range _ _
        (fun i j => diffValue (onCount f x y pol i j) (offCount f x y pol i j)) i j
        (by omega) (by omega)
  refine ⟨gen, ?_⟩
  obtain ⟨frame, hf, _, _, hpix⟩ := gen ⟨20, 20, false⟩ [10, 10, 5, 5] [10, 10, 5, 5]
    [1, 0, 1, 1] [100, 150, 300, 350] (by decide) (by decide) (by decide) rfl rfl
    (fun i j => by
      have h1 := onCount_le_length ⟨20, 20, false⟩ [10, 10, 5, 5] [10, 10, 5, 5] [1, 0, 1, 1] i j
      have h2 := offCount_le_length ⟨20, 20, false⟩ [10, 10, 5, 5] [10, 10, 5, 5] [1, 0, 1, 1] i j
      have h3 : (zipEvents [10, 10, 5, 5] [10, 10, 5, 5] [1, 0, 1, 1]).length = 4 := rfl
      simp only [INT_MAX]
      omega)
  have hall : ∀ i : Nat, i < 20 → ∀ j : Nat, j < 20 →
      diffValue
        (onCount ⟨20, 20, false⟩ [10, 10, 5, 5] [10, 10, 5, 5] [1, 0, 1, 1] i j)
        (offCount ⟨20, 20, false⟩ [10, 10, 5, 5] [10, 10, 5, 5] [1, 0, 1, 1] i j) =
      if (i, j) = (5, 5) then 255 else 127 := by decide
  refine ⟨frame, hf, ?_, ?_, ?_⟩
  · rw [hpix 10 10 (by decide) (by decide), hall 10 (by decide) 10 (by decide)]
    rfl
  · rw [hpix 5 5 (by decide) (by decide), hall 5 (by decide) 5 (by decide)]
    rfl
  · intro i j hi hj hne
    rw [hpix i j (by simp only [show ((20 : Int) = ((20 : Nat) : Int)) from rfl]; omega)
      (by simp only [show ((20 : Int) = ((20 : Nat) : Int)) from rfl]; omega), hall i hi j hj,
      if_neg hne]

theorem constructGray_spec_witness :
    ∃ frame, constructGray ⟨2, 3, false⟩ [7, 0] [-1, 9] [0, 1] [5, 6] = some frame ∧
      frame.length = 2 ∧ pixelAt frame 0 2 = some 0 ∧ pixelAt frame 1 0 = some 255 := by
  obtain ⟨frame, h1, h2, _, h4⟩ := constructGray_spec.1 ⟨2, 3, false⟩ [7, 0] [-1, 9] [0, 1]
    [5, 6] (by decide) (by decide) (by decide) rfl rfl
    (fun i j => by
      have h1 := onCount_le_length ⟨2, 3, false⟩ [7, 0] [-1, 9] [0, 1] i j
      have h2 := offCount_le_length ⟨2, 3, false⟩ [7, 0] [-1, 9] [0, 1] i j
      have h3 : (zipEvents [7, 0] [-1, 9] [0, 1]).length = 2 := rfl
      simp only [INT_MAX]
      omega)
  refine ⟨frame, h1, h2, ?_, ?_⟩
  · rw [h4 0 2 (by decide) (by decide)]; decide
  · rw [h4 1 0 (by decide) (by decide)]; decide

/-- C6 as stated fails: a 65536 x 65536 frame has `height * width` beyond
`int`, and 2^31 on events on one pixel push its counter past `INT_MAX`; in
both cases the builder has no defined frame. -/
theorem constructGray_overflow :
    constructGray ⟨65536, 65536, false⟩ [] [] [] [] = none ∧
    constructGray ⟨1, 1, false⟩ (List.replicate 2147483648 0) (List.replicate 2147483648 0)
      (List.replicate 2147483648 1) (List.replicate 2147483648 0) = none := by
  constructor
  · decide
  · unfold constructGray
    rw [counters_replicate_overflow 2147483648 (by decide)]
    rfl

/-- C7 (amended): for every height >= 1 and width >= 1 whose product fits an
`int` and every event with arbitrary integer coordinates, the accumulator index
is that of the nearest in-bounds pixel
`(min(max(x,0),width-1), min(max(y,0),height-1))` and lies in
`[0, height*width)`; one loop iteration increments exactly that one counter (of
the on vector for `pol = 1`, of the off vector otherwise) as long as it is below
`INT_MAX`; and when no pixel collects more than `INT_MAX` on or off events the
counters of a window add up to the number of its events. -/
theorem accumulate_clamps (f : EventFrame)
    (hh : 1 ≤ f.height) (hw : 1 ≤ f.width) (hg : f.height * f.width ≤ INT_MAX) :
    (∀ x y : Int, pixelIndex f x y = some (clampedIndex f x y) ∧
      0 ≤ clampedIndex f x y ∧ clampedIndex f x y < f.height * f.width) ∧
    (∀ (x y pol : Int) (cOn cOff : List Int), inRange cOn → inRange cOff →
      cOn.length = (f.height * f.width).toNat → cOff.length = (f.height * f.width).toNat →
      (if pol = 1 then cOn else cOff).getD (clampedIndex f x y).toNat 0 < INT_MAX →
      accumulateEvent f x y pol (cOn, cOff) = some
        (if pol = 1 then
          (cOn.set (clampedIndex f x y).toNat (cOn.getD (clampedIndex f x y).toNat 0 + 1), cOff)
        else
          (cOn, cOff.set (clampedIndex f x y).toNat
            (cOff.getD (clampedIndex f x y).toNat 0 + 1)))) ∧
    (∀ x y pol : List Int, x.length = y.length → y.length = pol.length →
      (∀ i j : Int, (onCount f x y pol i j : Int) ≤ INT_MAX ∧
        (offCount f x y pol i j : Int) ≤ INT_MAX) →
      ∃ cOn cOff, counters f x y pol = some (cOn, cOff) ∧
        cOn.length = (f.height * f.width).toNat ∧ cOff.length = (f.height * f.width).toNat ∧
        cOn.sum + cOff.sum = (x.length : Int)) := by
  have hidx : ∀ x y : Int, pixelIndex f x y = some (clampedIndex f x y) ∧
      0 ≤ clampedIndex f x y ∧ clampedIndex f x y < f.height * f.width := by
    intro x y
    obtain ⟨hx0, hx1, _⟩ := clampCoord_bounds x f.width hw
    obtain ⟨hy0, hy1, _⟩ := clampCoord_bounds y f.height hh
    obtain ⟨hr0, hr1, hr2⟩ := rowMajor_bounds f.height f.width _ _ hy0 hy1 hx0 hx1
    exact ⟨pixelIndex_of_geometry f hh hw hg x y, by unfold clampedIndex; omega,
      by unfold clampedIndex; omega⟩
  refine ⟨hidx, ?_, ?_⟩
  · intro x y pol cOn cOff rOn rOff hOn hOff hlt
    obtain ⟨hpi, hi0, hi1⟩ := hidx x y
    have hk : (clampedIndex f x y).toNat < (f.height * f.width).toNat := by omega
    rw [accumulateEvent_eq_some_iff f x y pol cOn cOff rOn rOff]
    refine ⟨(clampedIndex f x y).toNat, by rw [hpi, Int.toNat_of_nonneg hi0], ?_⟩
    by_cases hp : pol = 1
    · rw [if_pos hp] at hlt
      rw [List.getD_eq_getElem _ _ (by omega)] at hlt
      refine Or.inl ⟨hp, by omega, by omega, ?_⟩
      rw [if_pos hp, List.getD_eq_getElem _ _ (by omega)]
    · rw [if_neg hp] at hlt
      rw [List.getD_eq_getElem _ _ (by omega)] at hlt
      refine Or.inr ⟨hp, by omega, by omega, ?_⟩
      rw [if_neg hp, List.getD_eq_getElem _ _ (by omega)]
  · intro x y pol hxy hyp hcnt
    have hpos : 0 ≤ f.height * f.width := Int.mul_nonneg (by omega) (by omega)
    have hB := hit_le_of_count_le f hh hw hg x y pol hcnt
    have hc := (counters_eq_some_iff f x y pol hxy hyp _).mpr
      ⟨⟨hpos, hg⟩, validEvents_of_geometry f hh hw hg _, fun k _ => hB k, rfl⟩
    obtain ⟨h1, h2, h3⟩ := counters_sum f x y pol hxy hyp _ hc
    exact ⟨_, _, hc, h2, h3, h1⟩

theorem accumulate_clamps_witness :
    pixelIndex ⟨3, 4, false⟩ (-7) 100 = some (clampedIndex ⟨3, 4, false⟩ (-7) 100) ∧
    clampedIndex ⟨3, 4, false⟩ (-7) 100 = 8 ∧
    ∃ cOn cOff, counters ⟨3, 4, false⟩ [-7, 9] [100, 1] [1, 0] = some (cOn, cOff) ∧
      cOn.sum + cOff.sum = 2 := by
  have h := accumulate_clamps ⟨3, 4, false⟩ (by decide) (by decide) (by decide)
  refine ⟨(h.1 (-7) 100).1, by decide, ?_⟩
  obtain ⟨cOn, cOff, h1, _, _, h4⟩ := h.2.2 [-7, 9] [100, 1] [1, 0] rfl rfl
    (fun i j => by
      have h1 := onCount_le_length ⟨3, 4, false⟩ [-7, 9] [100, 1] [1, 0] i j
      have h2 := offCount_le_length ⟨3, 4, false⟩ [-7, 9] [100, 1] [1, 0] i j
      have h3 : (zipEvents [-7, 9] [100, 1] [1, 0]).length = 2 := rfl
      simp only [INT_MAX]
      omega)
  exact ⟨cOn, cOff, h1, h4⟩

/-- C7 as stated fails: on a 65536 x 65536 frame the index of the event
(65535, 65535) is not an `int` and the counter vectors are undefined, and 2^31
on events on one pixel leave no defined counters. -/
theorem accumulate_overflow :
    pixelIndex ⟨65536, 65536, false⟩ 65535 65535 = none ∧
    counters ⟨65536, 65536, false⟩ [65535] [65535] [1] = none ∧
    counters ⟨1, 1, false⟩ (List.replicate 2147483648 0) (List.replicate 2147483648 0)
      (List.replicate 2147483648 1) = none :=
  ⟨by decide, by decide, counters_replicate_overflow 2147483648 (by decide)⟩

/-- C8: the Difference Frame does not depend on event order. Permuting the
events of a window (the same permutation on the x, y and polarity columns)
leaves the per-pixel counters, the single-channel frame and the frame returned
by `EventFrame::construct` unchanged; and accumulating two parts of a window
separately and adding the counters entry by entry gives the counters of the
sequential accumulation of the whole window. -/
theorem construct_order_independent :
    (∀ (resize : List (List (Nat × Nat × Nat)) → Int → Int →
        Option (List (List (Nat × Nat × Nat))))
      (f : EventFrame) (x y pol time x1 y1 pol1 time1 : List Int),
      x.length = y.length → y.length = pol.length →
      x1.length = y1.length → y1.length = pol1.length →
      (zipEvents x y pol).Perm (zipEvents x1 y1 pol1) →
      counters f x y pol = counters f x1 y1 pol1 ∧
      constructGray f x y pol time = constructGray f x1 y1 pol1 time1 ∧
      EventFrame.construct resize f x y pol time =
        EventFrame.construct resize f x1 y1 pol1 time1) ∧
    (∀ (f : EventFrame) (xa ya pa xb yb pb : List Int),
      xa.length = ya.length → ya.length = pa.length →
      xb.length = yb.length → yb.length = pb.length →
      counters f (xa ++ xb) (ya ++ yb) (pa ++ pb) =
        mergeAccumulations (counters f xa ya pa) (counters f xb yb pb)) := by
  constructor
  · intro resize f x y pol time x1 y1 pol1 time1 hxy hyp hxy1 hyp1 hperm
    have hc := counters_perm f x y pol x1 y1 pol1 hxy hyp hxy1 hyp1 hperm
    have hgray : constructGray f x y pol time = constructGray f x1 y1 pol1 time1 := by
      unfold constructGray
      rw [hc]
    refine ⟨hc, hgray, ?_⟩
    unfold EventFrame.construct
    rw [hgray]
  · intro f xa ya pa xb yb pb h1 h2 h3 h4
    exact counters_append f xa ya pa xb yb pb h1 h2 h3 h4

theorem construct_order_independent_witness :
    constructGray ⟨4, 4, false⟩ [1, 3, 1] [2, 0, 2] [1, 0, 0] [10, 20, 30] =
      constructGray ⟨4, 4, false⟩ [1, 1, 3] [2, 2, 0] [0, 1, 0] [10, 20, 30] ∧
    counters ⟨4, 4, false⟩ ([1, 3] ++ [1]) ([2, 0] ++ [2]) ([1, 0] ++ [0]) =
      mergeAccumulations (counters ⟨4, 4, false⟩ [1, 3] [2, 0] [1, 0])
        (counters ⟨4, 4, false⟩ [1] [2] [0]) :=
  ⟨(construct_order_independent.1 (fun c _ _ => some c) ⟨4, 4, false⟩ [1, 3, 1] [2, 0, 2] [1, 0, 0]
      [10, 20, 30] [1, 1, 3] [2, 2, 0] [0, 1, 0] [10, 20, 30] rfl rfl rfl rfl
      (by decide)).2.1,
   construct_order_independent.2 ⟨4, 4, false⟩ [1, 3] [2, 0] [1, 0] [1] [2] [0]
      rfl rfl rfl rfl⟩

/-! ## The Stacked Histogram -/

/-- C9: evaluation of `StackedHistogram::construct` at a window of 300 on
events on pixel (0, 0) of a 1 x 1 histogram with one bin and
`count_cutoff = 255`: the cutoff is stored as 255, and the value emitted for
the pixel is 0, for any event columns the frame is all zeros. -/
theorem stackedHistogram_construct_zero :
    (StackedHistogram.new 1 1 1 (some 255) true false).count_cutoff = 255 ∧
    (StackedHistogram.new 1 1 1 (some 255) true false).construct
        (List.replicate 300 0) (List.replicate 300 0) (List.replicate 300 1)
        (List.replicate 300 0) = some [[0]] ∧
    (∀ x y pol time : List Int,
      (StackedHistogram.new 1 1 1 (some 255) true false).construct x y pol time
        = some [[0]]) :=
  ⟨by decide, rfl, fun _ _ _ _ => rfl⟩

/-! ## Global and per-slice correction -/

/-- C10: the global and the per-slice timestamp corrections can diverge: there
are a raw timestamp array and an index range `[s, e)` with `s ≤ e ≤ N` for
which the `t` column returned by `getEventSlice(s, e)` differs from elements
`s .. e-1` of the array returned by `getTime()`. -/
theorem slice_correction_diverges :
    ∃ (r : H5Reader) (s e : Nat) (T : List Int) (r1 : H5Reader) (ev : EventSlice),
      r.isOpen = true ∧ r.allTimes = [] ∧ s ≤ e ∧ e ≤ r.tData.length ∧
      getTime r = .ok (T, r1) ∧ getEventSlice r1 s e = .ok ev ∧
      ev.t ≠ (T.drop s).take (e - s) :=
  ⟨⟨true, some 2, some 2, [], [0, 0, 0], [0, 0, 0], [1, 1, 1], [5, 3, 4]⟩, 1, 3,
    [5, 5, 5],
    ⟨true, some 2, some 2, [5, 5, 5], [0, 0, 0], [0, 0, 0], [1, 1, 1], [5, 3, 4]⟩,
    ⟨[0, 0], [0, 0], [1, 1], [3, 4], some 2, some 2⟩,
    rfl, rfl, by decide, by decide, rfl, rfl, by decide⟩

/-! ## Geometry handed to the builder -/

/-- C11: evaluation of the geometry resolution of `main` for a sensor declared
as width 640 and height 480: the builder is configured with height 640 and
width 480; for every declared width `W` and height `H` the builder gets
height `W` and width `H`, so it has the declared geometry only when `W = H`;
and for the declaration width 3, height 2 the frame built from an empty window
has 3 rows of 2 columns. -/
theorem mainEventFrame_swaps :
    mainEventFrame [] [] [] [] 640 480 = ⟨640, 480, false⟩ ∧
    (mainEventFrame [] [] [] [] 640 480).height = 640 ∧
    (mainEventFrame [] [] [] [] 640 480).width = 480 ∧
    (∀ (xData yData pData tData : List Int) (W H : Int),
      (mainEventFrame xData yData pData tData W H).height = W ∧
      (mainEventFrame xData yData pData tData W H).width = H ∧
      (((mainEventFrame xData yData pData tData W H).height = H ∧
        (mainEventFrame xData yData pData tData W H).width = W) ↔ W = H)) ∧
    constructGray (mainEventFrame [] [] [] [] 3 2) [] [] [] [] =
      some [[127, 127], [127, 127], [127, 127]] := by
  refine ⟨rfl, rfl, rfl, ?_, by decide⟩
  intro xData yData pData tData W H
  refine ⟨rfl, rfl, ?_⟩
  show (W = H ∧ H = W) ↔ W = H
  constructor
  · exact fun h => h.1
  · exact fun h => ⟨h, h.symm⟩

end EventData
